import Mathlib

/-!
Verification of the Mega-Cube simulator engine
(`src/Software/Simulator/src/SimDisplay.h`, `SimDisplay.cpp`, `main.cpp`).

The development is a shallow embedding: the C++ data structures become Lean
structures, the frame primitives become Lean functions, machine integers are
modelled as `Nat`/`Int` with explicit two's-complement wrapping where the code
relies on it, and `float` scalar arithmetic is modelled exactly over `ℚ`
(with `Real.sqrt` used in specification statements for Euclidean distance).
-/

/-! ### Color model

`power/Color.h` is not part of the simulator sources, so the color operations
are modelled from the spec (§4.2). -/

/-- Three 8-bit channels. Channels are modelled as `ℕ`, kept in `[0,255]` by
every operation (spec §3: "every channel is always clamped to [0,255]"). -/
structure Color where
  r : ℕ
  g : ℕ
  b : ℕ
deriving DecidableEq, Repr

namespace Color

/-- Modelled from the spec: "black" is the all-zero value (`Color::BLACK`). -/
def black : Color := ⟨0, 0, 0⟩

/-- Modelled from the spec: `blend(weight, other)` "linearly interpolates each
channel toward `other` using an 8-bit weight"; the interpolation is exact at
the endpoint weights 0 and 255. -/
def blend (w : ℕ) (a other : Color) : Color :=
  ⟨(a.r * (255 - w) + other.r * w) / 255,
   (a.g * (255 - w) + other.g * w) / 255,
   (a.b * (255 - w) + other.b * w) / 255⟩

/-- Modelled from the spec: `scale(factor)` / `scaled` "multiplies all channels
by an 8-bit factor (over 255)". -/
def scaled (c : Color) (f : ℕ) : Color :=
  ⟨c.r * f / 255, c.g * f / 255, c.b * f / 255⟩

/-- Modelled from the spec: `maximize(other)` "replaces each channel with the
larger of itself and `other`". -/
def maximize (c other : Color) : Color :=
  ⟨max c.r other.r, max c.g other.g, max c.b other.b⟩

/-- Modelled from the spec: `operator+=` "accumulates additively (saturating)
into the existing cell value". -/
def add (c other : Color) : Color :=
  ⟨min 255 (c.r + other.r), min 255 (c.g + other.g), min 255 (c.b + other.b)⟩

end Color

/-! ### Display state

`Display` owns `Color cube[2][16][16][16]`, the selector `cubeBuffer` and the
raw byte buffer `rawBuffer[16][16][16][3]`.  Grids are modelled as functions
from `ℤ × ℤ × ℤ` (only the cells in `[0,16)³` exist in the C++ arrays; every
write in the code is bounds-masked before it happens). -/

structure DisplayState where
  cube : Fin 2 → ℤ × ℤ × ℤ → Color
  cubeBuffer : Fin 2
  raw : ℤ × ℤ × ℤ → Color

/-- `Display::begin` / static zero initialization: both buffers black,
`cubeBuffer = 0`. -/
def initDisplay : DisplayState :=
  { cube := fun _ _ => Color.black, cubeBuffer := 0, raw := fun _ => Color.black }

/-- Write one cell of one buffer (a single `Display::cube[b][x][y][z] = c`). -/
def setCell (s : DisplayState) (b : Fin 2) (p : ℤ × ℤ × ℤ) (c : Color) : DisplayState :=
  { s with cube := fun b' q => if b' = b ∧ q = p then c else s.cube b' q }

/-- `voxel(uint8 x, uint8 y, uint8 z, c)`: the guarded write
`if (((x | y | z) & 0xF0) == 0) cube[cubeBuffer][x][y][z] = c;`. -/
def voxel (x y z : ℕ) (c : Color) (s : DisplayState) : DisplayState :=
  if (x ||| y ||| z) &&& 0xF0 = 0 then
    setCell s s.cubeBuffer ((x : ℤ), (y : ℤ), (z : ℤ)) c
  else s

/-! ### World coordinates

The `Vector3` overloads convert each float component to an `int16_t` lattice
coordinate with `(int16_t)(v + 32768.5f + 7.5f) - 32768`.  The float-to-int
cast truncates toward zero; both narrowings to `int16_t` wrap modulo 2¹⁶ (the
de-facto semantics the idiom is built on — without the wrap the expression
could never produce a small coordinate).  Scalars are modelled exactly in `ℚ`. -/

/-- C/C++ float-to-integer conversion: truncation toward zero. -/
def truncQ (q : ℚ) : ℤ := if 0 ≤ q then ⌊q⌋ else ⌈q⌉

/-- Wrap an integer into the `int16_t` range `[-32768, 32767]` (two's
complement narrowing). -/
def wrap16 (n : ℤ) : ℤ := (n + 32768) % 65536 - 32768

/-- The 16-bit two's-complement bit pattern of an `int16_t` value, as a `ℕ`
(the pattern the C integer promotions feed into `|` and `&`). -/
def bits16 (n : ℤ) : ℕ := (n % 65536).toNat

/-- `int16_t x = (int16_t)(q + 32768.5f + CX) - 32768` with `CX = 7.5`. -/
def wcoord (q : ℚ) : ℤ := wrap16 (truncQ (q + 32768.5 + 7.5) - 32768)

/-- Rounding to the nearest integer, ties up: `⌊q + 1/2⌋`. -/
def roundHalfUp (q : ℚ) : ℤ := ⌊q + (1 : ℚ)/2⌋

/-- The bounds-masked test `((x | y | z) & 0xFFF0) == 0` on three `int16_t`
values (the promotions to `int` set only bits ≥ 16 for negatives, which the
mask discards, so the low 16 bits decide the test). -/
def mask16 (x y z : ℤ) : Prop := (bits16 x ||| bits16 y ||| bits16 z) &&& 65520 = 0

instance (x y z : ℤ) : Decidable (mask16 x y z) := by unfold mask16; infer_instance

/-- `voxel(const Vector3& v, const Color& c)`: round each component to a
lattice coordinate, masked-bounds test, write into the current buffer. -/
def voxelWorld (v : ℚ × ℚ × ℚ) (c : Color) (s : DisplayState) : DisplayState :=
  let x := wcoord v.1
  let y := wcoord v.2.1
  let z := wcoord v.2.2
  if mask16 x y z then setCell s s.cubeBuffer (x, y, z) c else s

/-- `voxel_add(const Vector3& v, const Color& c)`: as `voxelWorld` but
`cube[...][x][y][z] += c` (saturating add). -/
def voxel_add (v : ℚ × ℚ × ℚ) (c : Color) (s : DisplayState) : DisplayState :=
  let x := wcoord v.1
  let y := wcoord v.2.1
  let z := wcoord v.2.2
  if mask16 x y z then
    setCell s s.cubeBuffer (x, y, z) ((s.cube s.cubeBuffer (x, y, z)).add c)
  else s

/-! ### Radiate

`radiate`/`radiate5` sweep an integer box around the offset center and combine
a scaled color into every masked in-bounds cell strictly closer than `r`.
The float comparison `magnitude() < r` is embedded sqrt-free as
`0 < r ∧ distSq < r²` (equivalent over `ℝ`, see `sqrt_lt_iff_sq`), and the
8-bit truncation of the float falloff factor is embedded as an exact rational
counting definition (see `linFalloffFactor_eq_floor`/`falloff5Factor_eq_floor`
for the proof that it is the floor of the float expression in the source). -/

/-- `v0 + Vector3(CX, CY, CZ)` with `CX = CY = CZ = 7.5`. -/
def offCenter (v0 : ℚ × ℚ × ℚ) : ℚ × ℚ × ℚ := (v0.1 + 7.5, v0.2.1 + 7.5, v0.2.2 + 7.5)

/-- Squared Euclidean distance `(Vector3(x,y,z) - v).magnitude()²`. -/
def cellDistSq (p : ℤ × ℤ × ℤ) (v : ℚ × ℚ × ℚ) : ℚ :=
  ((p.1 : ℚ) - v.1) ^ 2 + ((p.2.1 : ℚ) - v.2.1) ^ 2 + ((p.2.2 : ℚ) - v.2.2) ^ 2

/-- The inner test `radius < r` of the radiate sweeps, with
`radius = √(cellDistSq p v)`: sqrt-free formulation. -/
def radGuard (p : ℤ × ℤ × ℤ) (v : ℚ × ℚ × ℚ) (r : ℚ) : Prop :=
  0 < r ∧ cellDistSq p v < r ^ 2

instance (p : ℤ × ℤ × ℤ) (v : ℚ × ℚ × ℚ) (r : ℚ) : Decidable (radGuard p v r) := by
  unfold radGuard; infer_instance

/-- The 8-bit factor `(uint8_t)(255 * (1 - radius / r))` of `radiate`, where
`radius = √s`: the number of `j ∈ [1,255]` with `j ≤ 255 * (1 - √s / r)`,
each test squared into an exact rational comparison.  Equals
`⌊255 * (1 - √s / r)⌋` whenever `0 ≤ s < r²` (`linFalloffFactor_eq_floor`). -/
def linFalloffFactor (s r : ℚ) : ℕ :=
  ((Finset.Icc (1 : ℤ) 255).filter (fun (j : ℤ) => 65025 * s ≤ ((255 : ℚ) - (j : ℚ)) ^ 2 * r ^ 2)).card

/-- The 8-bit factor `(uint8_t)(255 / (1 + radius⁵))` of `radiate5`, where
`radius = √s`.  Equals `⌊255 / (1 + (√s)⁵)⌋` for `0 ≤ s`
(`falloff5Factor_eq_floor`). -/
def falloff5Factor (s : ℚ) : ℕ :=
  ((Finset.Icc (1 : ℤ) 255).filter (fun (j : ℤ) => ((j : ℚ)) ^ 2 * s ^ 5 ≤ ((255 : ℚ) - (j : ℚ)) ^ 2)).card

/-- Lower loop bound `(int16_t)(v - r + 1)` of the radiate sweeps. -/
def radBoxLo (c r : ℚ) : ℤ := truncQ (c - r + 1)

/-- Upper loop bound `(int16_t)(v + r)` of the radiate sweeps. -/
def radBoxHi (c r : ℚ) : ℤ := truncQ (c + r)

/-- The integers from `a` to `b` inclusive (a C `for (x = a; x <= b; x++)`). -/
def intRange (a b : ℤ) : List ℤ :=
  (List.range (b + 1 - a).toNat).map (fun (k : ℕ) => a + (k : ℤ))

/-- The triple nested loop of the radiate sweeps: all `(x, y, z)` with
`x1 ≤ x ≤ x2`, `y1 ≤ y ≤ y2`, `z1 ≤ z ≤ z2`, in loop order. -/
def boxTriples (v : ℚ × ℚ × ℚ) (r : ℚ) : List (ℤ × ℤ × ℤ) :=
  (intRange (radBoxLo v.1 r) (radBoxHi v.1 r)).flatMap fun x =>
    (intRange (radBoxLo v.2.1 r) (radBoxHi v.2.1 r)).flatMap fun y =>
      (intRange (radBoxLo v.2.2 r) (radBoxHi v.2.2 r)).map fun z => (x, y, z)

/-- One guarded per-cell write of a radiate sweep: if the cell passes the
guard, its current value is replaced by `val p` of it, in the current buffer. -/
def radStep (G : ℤ × ℤ × ℤ → Prop) [DecidablePred G] (val : ℤ × ℤ × ℤ → Color → Color)
    (t : DisplayState) (p : ℤ × ℤ × ℤ) : DisplayState :=
  if G p then setCell t t.cubeBuffer p (val p (t.cube t.cubeBuffer p)) else t

/-- A radiate sweep: fold the guarded per-cell write over the box. -/
def radSweep (G : ℤ × ℤ × ℤ → Prop) [DecidablePred G] (val : ℤ × ℤ × ℤ → Color → Color)
    (ps : List (ℤ × ℤ × ℤ)) (s : DisplayState) : DisplayState :=
  ps.foldl (radStep G val) s

/-- `radiate(const Vector3& v0, const Color& c, const float r)`. -/
def radiate (v0 : ℚ × ℚ × ℚ) (c : Color) (r : ℚ) (s : DisplayState) : DisplayState :=
  let v := offCenter v0
  radSweep (fun p => mask16 p.1 p.2.1 p.2.2 ∧ radGuard p v r)
    (fun p old => old.maximize (c.scaled (linFalloffFactor (cellDistSq p v) r)))
    (boxTriples v r) s

/-- `radiate5(const Vector3& v0, const Color& c, const float r)`: identical
sweep, `255 / (1 + radius⁵)` falloff. -/
def radiate5 (v0 : ℚ × ℚ × ℚ) (c : Color) (r : ℚ) (s : DisplayState) : DisplayState :=
  let v := offCenter v0
  radSweep (fun p => mask16 p.1 p.2.1 p.2.2 ∧ radGuard p v r)
    (fun p old => old.maximize (c.scaled (falloff5Factor (cellDistSq p v))))
    (boxTriples v r) s

/-! ### Frame advance -/

/-- Cells of the physical 16³ cube. -/
def inCubeZ (p : ℤ × ℤ × ℤ) : Prop :=
  0 ≤ p.1 ∧ p.1 < 16 ∧ 0 ≤ p.2.1 ∧ p.2.1 < 16 ∧ 0 ≤ p.2.2 ∧ p.2.2 < 16

instance : DecidablePred inCubeZ := fun p => by unfold inCubeZ; infer_instance

/-- `Display::update()`: for every cell blend the write-buffer value toward
the previous buffer's value with the motion-blur weight and write the result
into `rawBuffer`; then flip `cubeBuffer` and clear the new write-buffer
(`Display::clear`). -/
def Display.update (blur : ℕ) (s : DisplayState) : DisplayState :=
  let prev : Fin 2 := 1 - s.cubeBuffer
  { cube := fun b q => if b = prev then Color.black else s.cube b q,
    cubeBuffer := prev,
    raw := fun p =>
      if inCubeZ p then Color.blend blur (s.cube s.cubeBuffer p) (s.cube prev p)
      else s.raw p }

/-! ### Cellular-automaton engine (`LifeDemo` in `main.cpp`)

Cells are a `16×16` array of `uint16_t` bitmasks (bit `z` of `cells[x][y]`).
Grids are modelled as `ℕ → ℕ → ℕ` (indexed only at `[0,16)²`, values in the
`uint16_t` range; all accesses in the code are `& 0xF`-masked).  The random
reseeding (`rand()`, `noise.nextRandom`, and the spherical `sinf/cosf/roundf`
position sampling of `game_randomize`) is driven by the external generator:
it is modelled as oracle inputs — `rnd` for the `rand()` amount and `pl i` for
the rounded `uint16_t` lattice candidate of iteration `i`. -/

inductive Rule
  | DIE
  | LIVE
  | BIRTH
deriving DecidableEq, Repr

structure LifeState where
  g1 : ℕ → ℕ → ℕ
  g2 : ℕ → ℕ → ℕ
  rules : ℕ → Rule
  hash_list : ℕ → ℕ
  hash_nr : ℕ
  living : ℕ
  sequence : ℕ

/-- `LifeDemo::count_neighbours(int16_t x_, int16_t y_, int16_t z_)`: the
triple `x_-1..x_+1` loop; indices are wrapped with `& 0xF` (= `% 16` on the
two's-complement pattern) and the cell itself is excluded by comparing the
unwrapped coordinates. -/
def count_neighbours (g : ℕ → ℕ → ℕ) (x_ y_ z_ : ℤ) : ℕ :=
  (([x_ - 1, x_, x_ + 1] : List ℤ).map fun x =>
    (([y_ - 1, y_, y_ + 1] : List ℤ).map fun y =>
      let cells := g ((x % 16).toNat) ((y % 16).toNat)
      (([z_ - 1, z_, z_ + 1] : List ℤ).map fun z =>
        if ¬(x = x_ ∧ y = y_ ∧ z = z_) ∧ cells.testBit ((z % 16).toNat) then 1 else 0).sum).sum).sum

/-- The inner `z` loop of `game_next_generation` for one column `(x, y)`:
starting from `cells = cells_g1[x][y]`, apply the rule for every `z`,
accumulating the hash (`+= count * (x*3 + y*5 + z*7)`) and the number of
live bits after the update.  Returns `(cells, hash, living)` contributions.
`~(1 << z)` on `uint16_t` is `65535 ^^^ (1 <<< z)`. -/
def stepColumn (g : ℕ → ℕ → ℕ) (rules : ℕ → Rule) (x y : ℕ) : ℕ × ℕ × ℕ :=
  (List.range 16).foldl
    (fun (acc : ℕ × ℕ × ℕ) (z : ℕ) =>
      let cnt := count_neighbours g (x : ℤ) (y : ℤ) (z : ℤ)
      let cells :=
        match rules cnt with
        | Rule.DIE => acc.1 &&& (65535 ^^^ (1 <<< z))
        | Rule.LIVE => acc.1
        | Rule.BIRTH => acc.1 ||| (1 <<< z)
      (cells, acc.2.1 + cnt * (x * 3 + y * 5 + z * 7),
        acc.2.2 + if cells.testBit z then 1 else 0))
    (g x y, 0, 0)

/-- `LifeDemo::game_next_generation()`: copy `cells_g2` into `cells_g1`,
recompute every column from the copy, set `living`, return the hash (the
`uint32_t` sums stay far below 2³², so plain `ℕ` sums are exact). -/
def game_next_generation (s : LifeState) : LifeState × ℕ :=
  let g1 := s.g2
  let hash := ∑ x ∈ Finset.range 16, ∑ y ∈ Finset.range 16, (stepColumn g1 s.rules x y).2.1
  let lv := ∑ x ∈ Finset.range 16, ∑ y ∈ Finset.range 16, (stepColumn g1 s.rules x y).2.2
  ({ s with
      g1 := g1,
      g2 := fun x y => if x < 16 ∧ y < 16 then (stepColumn g1 s.rules x y).1 else s.g2 x y,
      living := lv },
    hash)

/-- `LifeDemo::game_rule_reset()`: all 27 rule entries to `DIE`. -/
def game_rule_reset (s : LifeState) : LifeState :=
  { s with rules := fun _ => Rule.DIE }

/-- `LifeDemo::game_reset()`: zero `living`, `hash_nr` and both generations,
then `game_rule_reset`. -/
def game_reset (s : LifeState) : LifeState :=
  { s with living := 0, hash_nr := 0, g1 := fun _ _ => 0, g2 := fun _ _ => 0,
           rules := fun _ => Rule.DIE }

/-- `LifeDemo::game_randomize(amount, rad)`: clear `cells_g2`, place `amount`
random candidates (the oracle `pl` supplies the rounded lattice coordinates of
each iteration; out-of-range candidates are dropped), then `living = amount`
(the source sets the counter to `amount` even when candidates were dropped or
coincided). -/
def game_randomize (amount : ℕ) (pl : ℕ → ℕ × ℕ × ℕ) (s : LifeState) : LifeState :=
  let g := (List.range amount).foldl
    (fun g i =>
      let q := pl i
      if q.1 < 16 ∧ q.2.1 < 16 ∧ q.2.2 < 16 then
        fun a b => if a = q.1 ∧ b = q.2.1 then g a b ||| (1 <<< q.2.2) else g a b
      else g)
    (fun _ _ => 0)
  { s with g2 := g, living := amount }

/-- One rule-table entry assignment `rules[i] = v`. -/
def updRule (t : ℕ → Rule) (i : ℕ) (v : Rule) : ℕ → Rule :=
  fun n => if n = i then v else t n

/-- The extinction arm of `game_progress`: `switch (sequence++)` installs the
next rule preset over the reset table and reseeds a random population.  The
`rand()` amount argument is the oracle `rnd`. -/
def game_reseed (rnd : ℕ) (pl : ℕ → ℕ × ℕ × ℕ) (s : LifeState) : LifeState :=
  match s.sequence with
  | 0 => game_randomize (200 + rnd % 200) pl
      { s with sequence := 1,
               rules := updRule (updRule s.rules 4 Rule.LIVE) 5 Rule.BIRTH }
  | 1 => game_randomize (200 + rnd % 200) pl
      { s with sequence := 2,
               rules := updRule (updRule (updRule s.rules 5 Rule.LIVE) 7 Rule.LIVE) 6 Rule.BIRTH }
  | 2 => game_randomize (200 + rnd % 200) pl
      { s with sequence := 3,
               rules := updRule (updRule s.rules 5 Rule.BIRTH) 6 Rule.LIVE }
  | _ => game_randomize 25 pl
      { s with sequence := 0,
               rules := updRule (updRule (updRule (updRule s.rules 5 Rule.BIRTH)
                 6 Rule.LIVE) 7 Rule.LIVE) 8 Rule.LIVE }

/-- The rule table installed by preset `seq` of the rotation (over the reset
all-`DIE` table). -/
def presetRules (seq : ℕ) : ℕ → Rule :=
  match seq with
  | 0 => updRule (updRule (fun _ => Rule.DIE) 4 Rule.LIVE) 5 Rule.BIRTH
  | 1 => updRule (updRule (updRule (fun _ => Rule.DIE) 5 Rule.LIVE) 7 Rule.LIVE) 6 Rule.BIRTH
  | 2 => updRule (updRule (fun _ => Rule.DIE) 5 Rule.BIRTH) 6 Rule.LIVE
  | _ => updRule (updRule (updRule (updRule (fun _ => Rule.DIE) 5 Rule.BIRTH)
      6 Rule.LIVE) 7 Rule.LIVE) 8 Rule.LIVE

/-- The population each preset places (`200 + rand() % 200`, or 25 for the
last preset). -/
def presetAmount (seq rnd : ℕ) : ℕ :=
  match seq with
  | 0 => 200 + rnd % 200
  | 1 => 200 + rnd % 200
  | 2 => 200 + rnd % 200
  | _ => 25

/-- The stagnation scan `for (uint8_t i = 0; i < hash_nr && i <= 255; i++)
if (hash_list[i] == hash) matches++;` as a fuelled step function.  The index
`i` is a `uint8_t`: the increment wraps modulo 256 and the test `i <= 255` is
always true.  `none` means the fuel ran out with the loop still running. -/
def scanLoop (hn : ℕ) (hl : ℕ → ℕ) (h : ℕ) : ℕ → ℕ → ℕ → Option ℕ
  | 0, _, _ => none
  | fuel + 1, i, m =>
    if i < hn ∧ i ≤ 255 then
      scanLoop hn hl h fuel ((i + 1) % 256) (m + if hl i = h then 1 else 0)
    else some m

/-- `LifeDemo::game_progress()`: one generation; on extinction reset + reseed
with the next preset; otherwise scan the recorded hashes and either freeze the
rules (all-`DIE`) and run one more generation, or record the hash in the ring
buffer.  `none` when the stagnation scan does not terminate within `fuel`. -/
def game_progress (fuel rnd : ℕ) (pl : ℕ → ℕ × ℕ × ℕ) (s : LifeState) : Option LifeState :=
  let gen := game_next_generation s
  let s1 := gen.1
  let hash := gen.2
  if s1.living = 0 then
    some (game_reseed rnd pl (game_reset s1))
  else
    match scanLoop s1.hash_nr s1.hash_list hash fuel 0 0 with
    | none => none
    | some mcount =>
      if 6 ≤ mcount ∨ 500 ≤ s1.living then
        some (game_next_generation (game_rule_reset s1)).1
      else
        some { s1 with
          hash_list := fun i => if i = s1.hash_nr % 256 then hash else s1.hash_list i,
          hash_nr := s1.hash_nr + 1 }

/-- Termination predicate for `game_progress` at a given state and oracle:
some amount of fuel completes the stagnation scan. -/
def gameProgressTerminates (rnd : ℕ) (pl : ℕ → ℕ × ℕ × ℕ) (s : LifeState) : Prop :=
  ∃ fuel s', game_progress fuel rnd pl s = some s'

/-! #### Specification-side neighbourhood (for C7)

The 26 neighbour cells of `(x,y,z)` — the enclosing `3×3×3` block minus the
cell itself, each coordinate wrapped modulo 16. -/

/-- Wrap a lattice coordinate onto the 16-torus. -/
def wrapCell (x y z : ℤ) : Fin 16 × Fin 16 × Fin 16 :=
  (⟨(x % 16).toNat, by omega⟩, ⟨(y % 16).toNat, by omega⟩, ⟨(z % 16).toNat, by omega⟩)

/-- The 26 neighbour cells of `(x,y,z)` on the 16-torus. -/
def neighbourCells (x y z : ℤ) : Finset (Fin 16 × Fin 16 × Fin 16) :=
  (((Finset.univ : Finset (Fin 3 × Fin 3 × Fin 3)).filter (fun d => d ≠ (1, 1, 1))).image
    fun d => wrapCell (x + (d.1 : ℤ) - 1) (y + (d.2.1 : ℤ) - 1) (z + (d.2.2 : ℤ) - 1))

/-- A cell of the torus is alive in grid `g`. -/
def cellLive (g : ℕ → ℕ → ℕ) (q : Fin 16 × Fin 16 × Fin 16) : Prop :=
  (g q.1 q.2.1).testBit q.2.2

instance (g : ℕ → ℕ → ℕ) (q : Fin 16 × Fin 16 × Fin 16) : Decidable (cellLive g q) := by
  unfold cellLive; infer_instance

/-- Number of live cells among the 26 neighbour cells. -/
def liveNeighbourCells (g : ℕ → ℕ → ℕ) (x y z : ℤ) : ℕ :=
  ((neighbourCells x y z).filter (cellLive g)).card

/-! ### Bounds-mask lemmas -/

theorem or_lt_two_pow_iff (x y k : ℕ) : x ||| y < 2 ^ k ↔ x < 2 ^ k ∧ y < 2 ^ k := by
  constructor
  · intro h
    constructor <;>
    · apply Nat.lt_pow_two_of_testBit
      intro i hi
      have hw : (x ||| y).testBit i = false :=
        Nat.testBit_lt_two_pow (lt_of_lt_of_le h (Nat.pow_le_pow_right (by norm_num) hi))
      rw [Nat.testBit_or] at hw
      rcases Bool.or_eq_false_iff.mp hw with ⟨h1, h2⟩
      first | exact h1 | exact h2
  · exact fun ⟨hx, hy⟩ => Nat.or_lt_two_pow hx hy

/-- For `n` in the `uint8` range, the masked test `n & 0xF0 == 0` is the bounds
test `n < 16`. -/
theorem and240_eq_zero_iff (n : ℕ) (hn : n < 256) : n &&& 240 = 0 ↔ n < 16 := by
  constructor
  · intro h
    have h4 : ∀ i, 4 ≤ i → n.testBit i = false := by
      intro i hi
      by_cases h8 : i < 8
      · have hb : (n &&& 240).testBit i = false := by rw [h]; exact Nat.zero_testBit i
        rw [Nat.testBit_and] at hb
        have hm : (240 : ℕ).testBit i = true := by interval_cases i <;> decide
        simpa [hm] using hb
      · refine Nat.testBit_lt_two_pow (lt_of_lt_of_le hn ?_)
        calc (256 : ℕ) = 2 ^ 8 := by norm_num
        _ ≤ 2 ^ i := Nat.pow_le_pow_right (by norm_num) (le_of_not_lt h8)
    have := Nat.lt_pow_two_of_testBit (n := 4) n h4
    simpa using this
  · intro h
    apply Nat.eq_of_testBit_eq
    intro i
    rw [Nat.testBit_and, Nat.zero_testBit]
    by_cases hi : i < 4
    · have hm : (240 : ℕ).testBit i = false := by interval_cases i <;> decide
      simp [hm]
    · have hx : n.testBit i = false := by
        refine Nat.testBit_lt_two_pow (lt_of_lt_of_le h ?_)
        calc (16 : ℕ) = 2 ^ 4 := by norm_num
        _ ≤ 2 ^ i := Nat.pow_le_pow_right (by norm_num) (le_of_not_lt hi)
      simp [hx]

/-- For `n` in the `uint16` range, the masked test `n & 0xFFF0 == 0` is the
bounds test `n < 16`. -/
theorem and65520_eq_zero_iff (n : ℕ) (hn : n < 65536) : n &&& 65520 = 0 ↔ n < 16 := by
  constructor
  · intro h
    have h4 : ∀ i, 4 ≤ i → n.testBit i = false := by
      intro i hi
      by_cases h16 : i < 16
      · have hb : (n &&& 65520).testBit i = false := by rw [h]; exact Nat.zero_testBit i
        rw [Nat.testBit_and] at hb
        have hm : (65520 : ℕ).testBit i = true := by interval_cases i <;> decide
        simpa [hm] using hb
      · refine Nat.testBit_lt_two_pow (lt_of_lt_of_le hn ?_)
        calc (65536 : ℕ) = 2 ^ 16 := by norm_num
        _ ≤ 2 ^ i := Nat.pow_le_pow_right (by norm_num) (le_of_not_lt h16)
    have := Nat.lt_pow_two_of_testBit (n := 4) n h4
    simpa using this
  · intro h
    apply Nat.eq_of_testBit_eq
    intro i
    rw [Nat.testBit_and, Nat.zero_testBit]
    by_cases hi : i < 4
    · have hm : (65520 : ℕ).testBit i = false := by interval_cases i <;> decide
      simp [hm]
    · have hx : n.testBit i = false := by
        refine Nat.testBit_lt_two_pow (lt_of_lt_of_le h ?_)
        calc (16 : ℕ) = 2 ^ 4 := by norm_num
        _ ≤ 2 ^ i := Nat.pow_le_pow_right (by norm_num) (le_of_not_lt hi)
      simp [hx]

/-- The `uint8` bounds mask of `voxel` tests exactly `x,y,z < 16`. -/
theorem voxelMask_iff (x y z : ℕ) (hx : x < 256) (hy : y < 256) (hz : z < 256) :
    (x ||| y ||| z) &&& 240 = 0 ↔ x < 16 ∧ y < 16 ∧ z < 16 := by
  have h256 : (256 : ℕ) = 2 ^ 8 := by norm_num
  have h16 : (16 : ℕ) = 2 ^ 4 := by norm_num
  have hw : x ||| y ||| z < 256 := by
    rw [h256] at hx hy hz ⊢
    exact Nat.or_lt_two_pow (Nat.or_lt_two_pow hx hy) hz
  rw [and240_eq_zero_iff _ hw, h16, or_lt_two_pow_iff, or_lt_two_pow_iff]
  tauto

theorem bits16_lt (n : ℤ) : bits16 n < 65536 := by
  unfold bits16
  omega

theorem bits16_lt_16_iff (n : ℤ) (h1 : -32768 ≤ n) (h2 : n < 32768) :
    bits16 n < 16 ↔ 0 ≤ n ∧ n < 16 := by
  unfold bits16
  omega

/-- The `int16_t` bounds mask of the `Vector3` primitives tests exactly
`0 ≤ x,y,z < 16`, provided the three values are genuine `int16_t` values. -/
theorem mask16_iff (x y z : ℤ)
    (hx1 : -32768 ≤ x) (hx2 : x < 32768) (hy1 : -32768 ≤ y) (hy2 : y < 32768)
    (hz1 : -32768 ≤ z) (hz2 : z < 32768) :
    mask16 x y z ↔ (0 ≤ x ∧ x < 16) ∧ (0 ≤ y ∧ y < 16) ∧ (0 ≤ z ∧ z < 16) := by
  have h65536 : (65536 : ℕ) = 2 ^ 16 := by norm_num
  have h16 : (16 : ℕ) = 2 ^ 4 := by norm_num
  have hw : bits16 x ||| bits16 y ||| bits16 z < 65536 := by
    rw [h65536]
    exact Nat.or_lt_two_pow (Nat.or_lt_two_pow (h65536 ▸ bits16_lt x) (h65536 ▸ bits16_lt y))
      (h65536 ▸ bits16_lt z)
  unfold mask16
  rw [and65520_eq_zero_iff _ hw, h16, or_lt_two_pow_iff, or_lt_two_pow_iff, ← h16,
    bits16_lt_16_iff x hx1 hx2, bits16_lt_16_iff y hy1 hy2, bits16_lt_16_iff z hz1 hz2]
  tauto

/-! ### Basic state lemmas -/

theorem setCell_cubeBuffer (s : DisplayState) (b : Fin 2) (p : ℤ × ℤ × ℤ) (c : Color) :
    (setCell s b p c).cubeBuffer = s.cubeBuffer := rfl

theorem setCell_raw (s : DisplayState) (b : Fin 2) (p : ℤ × ℤ × ℤ) (c : Color) :
    (setCell s b p c).raw = s.raw := rfl

theorem setCell_cube_self (s : DisplayState) (b : Fin 2) (p : ℤ × ℤ × ℤ) (c : Color) :
    (setCell s b p c).cube b p = c := by
  simp [setCell]

theorem setCell_cube_other (s : DisplayState) (b : Fin 2) (p : ℤ × ℤ × ℤ) (c : Color)
    (b' : Fin 2) (q : ℤ × ℤ × ℤ) (h : ¬(b' = b ∧ q = p)) :
    (setCell s b p c).cube b' q = s.cube b' q := by
  simp only [setCell]
  rw [if_neg h]

/-! ### `wcoord`: rounding within the `int16_t` range -/

theorem wcoord_eq_round (q : ℚ) (h1 : -32768 ≤ roundHalfUp (q + 7.5))
    (h2 : roundHalfUp (q + 7.5) < 32768) :
    wcoord q = roundHalfUp (q + 7.5) := by
  unfold roundHalfUp at *
  have hc : (-32768 : ℚ) ≤ q + 7.5 + 1/2 := Int.le_floor.mp h1
  have hq : (0 : ℚ) ≤ q + 32768.5 + 7.5 := by
    have : (32768.5 : ℚ) = 32768 + 1/2 := by norm_num
    linarith
  unfold wcoord truncQ
  rw [if_pos hq]
  have hsplit : ⌊q + 32768.5 + 7.5⌋ = ⌊q + 7.5 + 1/2⌋ + 32768 := by
    rw [show q + 32768.5 + 7.5 = q + 7.5 + 1/2 + ((32768 : ℤ) : ℚ) by push_cast; ring]
    rw [Int.floor_add_int]
  rw [hsplit]
  unfold wrap16
  omega

/-- C1: for `uint8` lattice coordinates, `voxel(x,y,z,c)` is a no-op when any
coordinate is ≥ 16, writes exactly `c` into the current write-buffer cell
`(x,y,z)` (and no other cell of either buffer) when all are < 16, and its
bounds test is the single masked test `((x | y | z) & 0xF0) == 0`, which is
equivalent to the three comparisons. -/
theorem voxel_local_correct (s : DisplayState) (x y z : ℕ) (c : Color)
    (hx : x < 256) (hy : y < 256) (hz : z < 256) :
    ((x ||| y ||| z) &&& 0xF0 = 0 ↔ x < 16 ∧ y < 16 ∧ z < 16) ∧
    (¬(x < 16 ∧ y < 16 ∧ z < 16) → voxel x y z c s = s) ∧
    (x < 16 → y < 16 → z < 16 →
      (voxel x y z c s).cube s.cubeBuffer ((x : ℤ), (y : ℤ), (z : ℤ)) = c ∧
      ∀ (b : Fin 2) (q : ℤ × ℤ × ℤ), ¬(b = s.cubeBuffer ∧ q = ((x : ℤ), (y : ℤ), (z : ℤ))) →
        (voxel x y z c s).cube b q = s.cube b q) := by
  have hm := voxelMask_iff x y z hx hy hz
  refine ⟨hm, ?_, ?_⟩
  · intro hno
    unfold voxel
    rw [if_neg (fun hmask => hno (hm.mp hmask))]
  · intro h1 h2 h3
    unfold voxel
    rw [if_pos (hm.mpr ⟨h1, h2, h3⟩)]
    exact ⟨setCell_cube_self s s.cubeBuffer _ c,
      fun b q hq => setCell_cube_other s s.cubeBuffer _ c b q hq⟩

theorem voxel_local_correct_w :
    (2 : ℕ) < 256 ∧ (20 : ℕ) < 256 ∧ (5 : ℕ) < 256 ∧
    voxel 2 20 5 ⟨255, 0, 0⟩ initDisplay = initDisplay := by
  refine ⟨by decide, by decide, by decide, ?_⟩
  exact (voxel_local_correct initDisplay 2 20 5 ⟨255, 0, 0⟩ (by decide) (by decide)
    (by decide)).2.1 (by decide)

/-- C2 (amended): for every `v` whose components, offset by 7.5 and rounded to
the nearest integer (ties up), are `int16_t`-representable, `voxel(v, c)` maps
`v` to exactly that rounded lattice cell; if all three rounded coordinates lie
in `[0,16)` it writes `c` there (and changes no other cell), otherwise the
call is a silent no-op.  (Outside the `int16_t` range the 16-bit wrap can
alias a far-away position into the cube — see `voxelWorld_wrap_cx`.) -/
theorem voxelWorld_correct (s : DisplayState) (v : ℚ × ℚ × ℚ) (c : Color)
    (h11 : -32768 ≤ roundHalfUp (v.1 + 7.5)) (h12 : roundHalfUp (v.1 + 7.5) < 32768)
    (h21 : -32768 ≤ roundHalfUp (v.2.1 + 7.5)) (h22 : roundHalfUp (v.2.1 + 7.5) < 32768)
    (h31 : -32768 ≤ roundHalfUp (v.2.2 + 7.5)) (h32 : roundHalfUp (v.2.2 + 7.5) < 32768) :
    (wcoord v.1 = roundHalfUp (v.1 + 7.5) ∧ wcoord v.2.1 = roundHalfUp (v.2.1 + 7.5) ∧
      wcoord v.2.2 = roundHalfUp (v.2.2 + 7.5)) ∧
    (((0 ≤ wcoord v.1 ∧ wcoord v.1 < 16) ∧ (0 ≤ wcoord v.2.1 ∧ wcoord v.2.1 < 16) ∧
      (0 ≤ wcoord v.2.2 ∧ wcoord v.2.2 < 16)) →
      (voxelWorld v c s).cube s.cubeBuffer (wcoord v.1, wcoord v.2.1, wcoord v.2.2) = c ∧
      ∀ (b : Fin 2) (q : ℤ × ℤ × ℤ),
        ¬(b = s.cubeBuffer ∧ q = (wcoord v.1, wcoord v.2.1, wcoord v.2.2)) →
          (voxelWorld v c s).cube b q = s.cube b q) ∧
    (¬((0 ≤ wcoord v.1 ∧ wcoord v.1 < 16) ∧ (0 ≤ wcoord v.2.1 ∧ wcoord v.2.1 < 16) ∧
        (0 ≤ wcoord v.2.2 ∧ wcoord v.2.2 < 16)) →
      voxelWorld v c s = s) := by
  have e1 := wcoord_eq_round v.1 h11 h12
  have e2 := wcoord_eq_round v.2.1 h21 h22
  have e3 := wcoord_eq_round v.2.2 h31 h32
  have hm := mask16_iff (wcoord v.1) (wcoord v.2.1) (wcoord v.2.2)
    (by rw [e1]; exact h11) (by rw [e1]; exact h12)
    (by rw [e2]; exact h21) (by rw [e2]; exact h22)
    (by rw [e3]; exact h31) (by rw [e3]; exact h32)
  refine ⟨⟨e1, e2, e3⟩, ?_, ?_⟩
  · intro hin
    simp only [voxelWorld]
    rw [if_pos (hm.mpr hin)]
    exact ⟨setCell_cube_self s s.cubeBuffer _ c,
      fun b q hq => setCell_cube_other s s.cubeBuffer _ c b q hq⟩
  · intro hno
    simp only [voxelWorld]
    rw [if_neg (fun hmask => hno (hm.mp hmask))]

theorem wcoord_zero : wcoord 0 = 8 := by
  norm_num [wcoord, truncQ, wrap16]

theorem wcoord_65536 : wcoord 65536 = 8 := by
  norm_num [wcoord, truncQ, wrap16]

theorem voxelWorld_correct_w :
    (-32768 ≤ roundHalfUp ((0 : ℚ) + 7.5) ∧ roundHalfUp ((0 : ℚ) + 7.5) < 32768) ∧
    (voxelWorld ((0 : ℚ), (0 : ℚ), (0 : ℚ)) ⟨255, 0, 0⟩ initDisplay).cube
      initDisplay.cubeBuffer
      (wcoord (0 : ℚ), wcoord (0 : ℚ), wcoord (0 : ℚ)) = ⟨255, 0, 0⟩ := by
  refine ⟨⟨by norm_num [roundHalfUp], by norm_num [roundHalfUp]⟩, ?_⟩
  exact ((voxelWorld_correct initDisplay ((0 : ℚ), (0 : ℚ), (0 : ℚ)) ⟨255, 0, 0⟩
    (by norm_num [roundHalfUp]) (by norm_num [roundHalfUp]) (by norm_num [roundHalfUp])
    (by norm_num [roundHalfUp]) (by norm_num [roundHalfUp]) (by norm_num [roundHalfUp])).2.1
    (by norm_num [wcoord_zero])).1

/-- C2 counterexample: at `v = (65536, 0, 0)` the rounded x coordinate is
65544, far outside `[0,16)`, so the claim requires a silent no-op; but the
`int16_t` wraparound aliases the position to cell `(8,8,8)` and the call
writes `c` there, modifying the grid. -/
theorem voxelWorld_wrap_cx :
    roundHalfUp ((65536 : ℚ) + 7.5) = 65544 ∧
    ¬ (0 ≤ (65544 : ℤ) ∧ (65544 : ℤ) < 16) ∧
    (voxelWorld ((65536 : ℚ), 0, 0) ⟨255, 0, 0⟩ initDisplay).cube 0 (8, 8, 8) = ⟨255, 0, 0⟩ ∧
    initDisplay.cube 0 (8, 8, 8) = ⟨0, 0, 0⟩ := by
  refine ⟨by norm_num [roundHalfUp], by decide, ?_, by decide⟩
  simp only [voxelWorld, wcoord_65536, wcoord_zero]
  rw [if_pos (by decide : mask16 8 8 8)]
  decide

/-! ### Sweep lemmas -/

theorem radStep_cubeBuffer (G : ℤ × ℤ × ℤ → Prop) [DecidablePred G]
    (val : ℤ × ℤ × ℤ → Color → Color) (t : DisplayState) (p : ℤ × ℤ × ℤ) :
    (radStep G val t p).cubeBuffer = t.cubeBuffer := by
  unfold radStep; split <;> rfl

theorem radStep_raw (G : ℤ × ℤ × ℤ → Prop) [DecidablePred G]
    (val : ℤ × ℤ × ℤ → Color → Color) (t : DisplayState) (p : ℤ × ℤ × ℤ) :
    (radStep G val t p).raw = t.raw := by
  unfold radStep; split <;> rfl

theorem radStep_cube_other (G : ℤ × ℤ × ℤ → Prop) [DecidablePred G]
    (val : ℤ × ℤ × ℤ → Color → Color) (t : DisplayState) (p : ℤ × ℤ × ℤ)
    (b : Fin 2) (hb : b ≠ t.cubeBuffer) :
    (radStep G val t p).cube b = t.cube b := by
  unfold radStep; split
  · funext q
    exact setCell_cube_other t t.cubeBuffer p _ b q (fun h => hb h.1)
  · rfl

theorem radSweep_cubeBuffer (G : ℤ × ℤ × ℤ → Prop) [DecidablePred G]
    (val : ℤ × ℤ × ℤ → Color → Color) (ps : List (ℤ × ℤ × ℤ)) :
    ∀ s : DisplayState, (radSweep G val ps s).cubeBuffer = s.cubeBuffer := by
  induction ps with
  | nil => intro s; rfl
  | cons a ps ih =>
    intro s
    show (radSweep G val ps (radStep G val s a)).cubeBuffer = s.cubeBuffer
    rw [ih, radStep_cubeBuffer]

theorem radSweep_raw (G : ℤ × ℤ × ℤ → Prop) [DecidablePred G]
    (val : ℤ × ℤ × ℤ → Color → Color) (ps : List (ℤ × ℤ × ℤ)) :
    ∀ s : DisplayState, (radSweep G val ps s).raw = s.raw := by
  induction ps with
  | nil => intro s; rfl
  | cons a ps ih =>
    intro s
    show (radSweep G val ps (radStep G val s a)).raw = s.raw
    rw [ih, radStep_raw]

theorem radSweep_cube_other (G : ℤ × ℤ × ℤ → Prop) [DecidablePred G]
    (val : ℤ × ℤ × ℤ → Color → Color) (ps : List (ℤ × ℤ × ℤ)) :
    ∀ (s : DisplayState) (b : Fin 2), b ≠ s.cubeBuffer →
      (radSweep G val ps s).cube b = s.cube b := by
  induction ps with
  | nil => intro s b _; rfl
  | cons a ps ih =>
    intro s b hb
    show (radSweep G val ps (radStep G val s a)).cube b = s.cube b
    rw [ih _ b (by rw [radStep_cubeBuffer]; exact hb), radStep_cube_other G val s a b hb]

/-- The radiate sweeps write each listed cell exactly once (the box triples
are pairwise distinct), the new value depending only on the cell's own old
value, so the fold is a per-cell update. -/
theorem radSweep_cube_current (G : ℤ × ℤ × ℤ → Prop) [DecidablePred G]
    (val : ℤ × ℤ × ℤ → Color → Color) (ps : List (ℤ × ℤ × ℤ)) :
    ∀ (s : DisplayState) (p : ℤ × ℤ × ℤ), ps.Nodup →
      (radSweep G val ps s).cube s.cubeBuffer p =
        if p ∈ ps ∧ G p then val p (s.cube s.cubeBuffer p)
        else s.cube s.cubeBuffer p := by
  induction ps with
  | nil =>
    intro s p _
    simp [radSweep]
  | cons a ps ih =>
    intro s p hnd
    rcases List.nodup_cons.mp hnd with ⟨ha, hps⟩
    show (radSweep G val ps (radStep G val s a)).cube s.cubeBuffer p = _
    have hcb : (radStep G val s a).cubeBuffer = s.cubeBuffer := radStep_cubeBuffer G val s a
    rw [← hcb, ih (radStep G val s a) p hps, hcb]
    by_cases hpa : p = a
    · subst hpa
      have hnotmem : ¬(p ∈ ps ∧ G p) := fun h => ha h.1
      rw [if_neg hnotmem]
      unfold radStep
      by_cases hg : G p
      · rw [if_pos hg, if_pos ⟨List.mem_cons_self _ _, hg⟩]
        exact setCell_cube_self s s.cubeBuffer p _
      · rw [if_neg hg, if_neg (fun h => hg h.2)]
    · have hstep : (radStep G val s a).cube s.cubeBuffer p = s.cube s.cubeBuffer p := by
        unfold radStep
        split
        · exact setCell_cube_other s s.cubeBuffer a _ s.cubeBuffer p (fun h => hpa h.2)
        · rfl
      rw [hstep]
      by_cases hmem : p ∈ ps ∧ G p
      · rw [if_pos hmem, if_pos ⟨List.mem_cons_of_mem a hmem.1, hmem.2⟩]
      · rw [if_neg hmem,
          if_neg (fun h => hmem ⟨(List.mem_cons.mp h.1).resolve_left hpa, h.2⟩)]

/-! ### Blend endpoints -/

theorem blend_zero (a b : Color) : Color.blend 0 a b = a := by
  cases a
  simp [Color.blend]

theorem blend_255 (a b : Color) : Color.blend 255 a b = b := by
  cases b
  simp [Color.blend]

theorem scaled_255 (c : Color) : c.scaled 255 = c := by
  cases c
  simp [Color.scaled]

/-- The single write performed by the C5 scenario:
`voxel(Vector3(0,0,0), Color(255,0,0))` hits cell `(8,8,8)`. -/
theorem voxelWorld_zero_write :
    voxelWorld ((0 : ℚ), (0 : ℚ), (0 : ℚ)) ⟨255, 0, 0⟩ initDisplay =
      setCell initDisplay 0 (8, 8, 8) ⟨255, 0, 0⟩ := by
  simp only [voxelWorld, wcoord_zero]
  rw [if_pos (by decide : mask16 8 8 8)]
  rfl

/-- C5: the frame-advance blend is exact at its endpoint weights: with
motion-blur weight 0 the raw frame equals the pre-advance write-buffer cell
for cell; with weight 255 it retains the previous buffer's contents in every
cell the client did not touch (left black) this frame; and the end-to-end
scenario — empty volume, `voxel(Vector3(0,0,0), Color(255,0,0))`, advance at
weight 0 — yields a raw frame whose cell `(8,8,8)` (the rounded center) is
`(255,0,0)` and every other cell `(0,0,0)`. -/
theorem update_blend_endpoints (s : DisplayState) (p : ℤ × ℤ × ℤ) (hp : inCubeZ p) :
    (Display.update 0 s).raw p = s.cube s.cubeBuffer p ∧
    (s.cube s.cubeBuffer p = Color.black →
      (Display.update 255 s).raw p = s.cube (1 - s.cubeBuffer) p) ∧
    ((Display.update 0 (voxelWorld ((0 : ℚ), (0 : ℚ), (0 : ℚ)) ⟨255, 0, 0⟩
        initDisplay)).raw (8, 8, 8) = ⟨255, 0, 0⟩ ∧
      ∀ q : ℤ × ℤ × ℤ, inCubeZ q → q ≠ (8, 8, 8) →
        (Display.update 0 (voxelWorld ((0 : ℚ), (0 : ℚ), (0 : ℚ)) ⟨255, 0, 0⟩
          initDisplay)).raw q = ⟨0, 0, 0⟩) := by
  refine ⟨?_, ?_, ?_, ?_⟩
  · show (if inCubeZ p then Color.blend 0 (s.cube s.cubeBuffer p)
        (s.cube (1 - s.cubeBuffer) p) else s.raw p) = s.cube s.cubeBuffer p
    rw [if_pos hp, blend_zero]
  · intro _
    show (if inCubeZ p then Color.blend 255 (s.cube s.cubeBuffer p)
        (s.cube (1 - s.cubeBuffer) p) else s.raw p) = s.cube (1 - s.cubeBuffer) p
    rw [if_pos hp, blend_255]
  · rw [voxelWorld_zero_write]
    decide
  · intro q hq hq8
    rw [voxelWorld_zero_write]
    simp only [Display.update]
    rw [if_pos hq, blend_zero, setCell_cubeBuffer,
      setCell_cube_other initDisplay 0 (8, 8, 8) ⟨255, 0, 0⟩ initDisplay.cubeBuffer q
        (fun h => hq8 h.2)]
    rfl

theorem update_blend_endpoints_w :
    inCubeZ (0, 0, 0) ∧
    (Display.update 0 initDisplay).raw (0, 0, 0) = initDisplay.cube 0 (0, 0, 0) := by
  refine ⟨by decide, ?_⟩
  exact (update_blend_endpoints initDisplay (0, 0, 0) (by decide)).1

/-- C6 (amended): after `Display::update` the buffer selector has flipped,
the newly selected write-buffer has been cleared to black, and the other
(non-current) buffer holds the previous frame's *pre-blend write-buffer*
contents — the cells the client stamped, not the blended frame, which only
goes to the raw buffer (see `update_cx`) — and the drawing primitives
`voxel`/`voxelWorld`/`voxel_add`/`radiate`/`radiate5` never write the
non-current buffer. -/
theorem update_buffer_invariants (s : DisplayState) (blur : ℕ) :
    (Display.update blur s).cubeBuffer = 1 - s.cubeBuffer ∧
    (∀ q, (Display.update blur s).cube ((Display.update blur s).cubeBuffer) q
        = Color.black) ∧
    (∀ q, (Display.update blur s).cube s.cubeBuffer q = s.cube s.cubeBuffer q) ∧
    (∀ b : Fin 2, b ≠ s.cubeBuffer →
      (∀ x y z c, (voxel x y z c s).cube b = s.cube b) ∧
      (∀ v c, (voxelWorld v c s).cube b = s.cube b) ∧
      (∀ v c, (voxel_add v c s).cube b = s.cube b) ∧
      (∀ v c r, (radiate v c r s).cube b = s.cube b) ∧
      (∀ v c r, (radiate5 v c r s).cube b = s.cube b)) := by
  have hne : ∀ b : Fin 2, ¬(b = 1 - b) := by decide
  refine ⟨rfl, ?_, ?_, ?_⟩
  · intro q
    show (if (1 - s.cubeBuffer : Fin 2) = 1 - s.cubeBuffer then Color.black else _)
        = Color.black
    rw [if_pos rfl]
  · intro q
    show (if s.cubeBuffer = 1 - s.cubeBuffer then Color.black else s.cube s.cubeBuffer q)
        = s.cube s.cubeBuffer q
    rw [if_neg (hne s.cubeBuffer)]
  · intro b hb
    refine ⟨?_, ?_, ?_, ?_, ?_⟩
    · intro x y z c
      unfold voxel
      split
      · funext q
        exact setCell_cube_other s s.cubeBuffer _ c b q (fun h => hb h.1)
      · rfl
    · intro v c
      simp only [voxelWorld]
      split
      · funext q
        exact setCell_cube_other s s.cubeBuffer _ c b q (fun h => hb h.1)
      · rfl
    · intro v c
      simp only [voxel_add]
      split
      · funext q
        exact setCell_cube_other s s.cubeBuffer _ _ b q (fun h => hb h.1)
      · rfl
    · intro v c r
      exact radSweep_cube_other _ _ _ s b hb
    · intro v c r
      exact radSweep_cube_other _ _ _ s b hb

theorem update_buffer_invariants_w :
    (0 : Fin 2) ≠ (1 : Fin 2) ∧
    (Display.update 64 initDisplay).cubeBuffer = 1 - initDisplay.cubeBuffer := by
  refine ⟨by decide, ?_⟩
  exact (update_buffer_invariants initDisplay 64).1

/-- C6 counterexample: with the default motion blur 64, a previous frame
holding `(255,0,0)` at cell `(0,0,0)` and an untouched write-buffer, the
blended raw frame holds `(64,0,0)` there, while after the advance the
non-current buffer holds `(0,0,0)` — the non-current buffer does *not* hold
the blended frame that was written to the exposed raw buffer. -/
theorem update_cx :
    ((Display.update 64 (setCell initDisplay 1 (0, 0, 0) ⟨255, 0, 0⟩)).raw (0, 0, 0)
      = ⟨64, 0, 0⟩) ∧
    ((Display.update 64 (setCell initDisplay 1 (0, 0, 0) ⟨255, 0, 0⟩)).cube
      (1 - (Display.update 64 (setCell initDisplay 1 (0, 0, 0) ⟨255, 0, 0⟩)).cubeBuffer)
      (0, 0, 0) = ⟨0, 0, 0⟩) ∧
    (⟨0, 0, 0⟩ : Color) ≠ ⟨64, 0, 0⟩ := by
  refine ⟨by decide, by decide, by decide⟩

/-! ### Radiate support lemmas -/

/-- The float test `magnitude() < r` (with `magnitude = √distSq`) is exactly
the sqrt-free guard `0 < r ∧ distSq < r²` used in the embedding. -/
theorem sqrt_lt_iff_sq (s r : ℚ) (_hs : 0 ≤ s) :
    Real.sqrt (s : ℝ) < (r : ℝ) ↔ 0 < r ∧ s < r ^ 2 := by
  constructor
  · intro h
    have hr : (0 : ℝ) < (r : ℝ) := lt_of_le_of_lt (Real.sqrt_nonneg _) h
    refine ⟨by exact_mod_cast hr, ?_⟩
    have := (Real.sqrt_lt' hr).mp h
    exact_mod_cast this
  · rintro ⟨hr, hlt⟩
    have hr' : (0 : ℝ) < (r : ℝ) := by exact_mod_cast hr
    exact (Real.sqrt_lt' hr').mpr (by exact_mod_cast hlt)

theorem mem_intRange (a b m : ℤ) : m ∈ intRange a b ↔ a ≤ m ∧ m ≤ b := by
  unfold intRange
  simp only [List.mem_map, List.mem_range]
  constructor
  · rintro ⟨k, hk, rfl⟩
    omega
  · intro ⟨h1, h2⟩
    exact ⟨(m - a).toNat, by omega, by omega⟩

theorem intRange_nodup (a b : ℤ) : (intRange a b).Nodup := by
  unfold intRange
  refine List.Nodup.map ?_ (List.nodup_range _)
  intro k1 k2 h
  dsimp only at h
  omega

theorem mem_boxTriples (v : ℚ × ℚ × ℚ) (r : ℚ) (p : ℤ × ℤ × ℤ) :
    p ∈ boxTriples v r ↔
      (radBoxLo v.1 r ≤ p.1 ∧ p.1 ≤ radBoxHi v.1 r) ∧
      (radBoxLo v.2.1 r ≤ p.2.1 ∧ p.2.1 ≤ radBoxHi v.2.1 r) ∧
      (radBoxLo v.2.2 r ≤ p.2.2 ∧ p.2.2 ≤ radBoxHi v.2.2 r) := by
  obtain ⟨x, y, z⟩ := p
  simp only [boxTriples, List.mem_flatMap, List.mem_map, mem_intRange]
  constructor
  · rintro ⟨a, ha, b, hb, c', hc, heq⟩
    obtain ⟨rfl, rfl, rfl⟩ : a = x ∧ b = y ∧ c' = z := by
      simpa [Prod.ext_iff] using heq
    exact ⟨ha, hb, hc⟩
  · rintro ⟨hx, hy, hz⟩
    exact ⟨x, hx, y, hy, z, hz, rfl⟩

theorem boxTriples_nodup (v : ℚ × ℚ × ℚ) (r : ℚ) : (boxTriples v r).Nodup := by
  unfold boxTriples
  refine List.nodup_flatMap.mpr ⟨fun x _ => ?_, ?_⟩
  · refine List.nodup_flatMap.mpr ⟨fun y _ => ?_, ?_⟩
    · refine List.Nodup.map ?_ (intRange_nodup _ _)
      intro z1 z2 h
      dsimp only at h
      simpa [Prod.ext_iff] using h
    · refine (intRange_nodup _ _).imp ?_
      intro y1 y2 hne t ht1 ht2
      simp only [List.mem_map] at ht1 ht2
      obtain ⟨z1, _, rfl⟩ := ht1
      obtain ⟨z2, _, h⟩ := ht2
      have h' : y1 = y2 ∧ z1 = z2 := by simpa [Prod.ext_iff] using h.symm
      exact hne h'.1
  · refine (intRange_nodup _ _).imp ?_
    intro x1 x2 hne t ht1 ht2
    simp only [List.mem_flatMap, List.mem_map] at ht1 ht2
    obtain ⟨y1, _, z1, _, rfl⟩ := ht1
    obtain ⟨y2, _, z2, _, h⟩ := ht2
    have h' : x1 = x2 ∧ y1 = y2 ∧ z1 = z2 := by simpa [Prod.ext_iff] using h.symm
    exact hne h'.1

/-- A nonnegative lattice coordinate strictly closer than `r` to the axis
center lies inside the loop bounds of the sweep. -/
theorem radBox_cover_axis (c r : ℚ) (m : ℤ) (hm : 0 ≤ m)
    (h : ((m : ℚ) - c) ^ 2 < r ^ 2) (hr : 0 < r) :
    radBoxLo c r ≤ m ∧ m ≤ radBoxHi c r := by
  have h1 : c - r < (m : ℚ) := by nlinarith
  have h2 : (m : ℚ) < c + r := by nlinarith
  constructor
  · unfold radBoxLo truncQ
    split
    · have : ⌊c - r + 1⌋ < m + 1 := by
        rw [Int.floor_lt]
        push_cast
        linarith
      omega
    · rename_i hneg
      have : ⌈c - r + 1⌉ ≤ 0 := Int.ceil_le.mpr (by push_cast; linarith [lt_of_not_le hneg])
      omega
  · unfold radBoxHi truncQ
    have hpos : (0 : ℚ) ≤ c + r := le_trans (by exact_mod_cast hm) (le_of_lt h2)
    rw [if_pos hpos]
    rw [Int.le_floor]
    exact le_of_lt h2

/-- Every in-cube cell that passes the distance guard is visited by the sweep:
the loop box misses no in-bounds cell of the sphere. -/
theorem boxTriples_cover (v : ℚ × ℚ × ℚ) (r : ℚ) (p : ℤ × ℤ × ℤ)
    (hx : 0 ≤ p.1) (hy : 0 ≤ p.2.1) (hz : 0 ≤ p.2.2) (hg : radGuard p v r) :
    p ∈ boxTriples v r := by
  rcases hg with ⟨hr, hlt⟩
  unfold cellDistSq at hlt
  have h1 : ((p.1 : ℚ) - v.1) ^ 2 < r ^ 2 := by nlinarith [sq_nonneg ((p.2.1 : ℚ) - v.2.1), sq_nonneg ((p.2.2 : ℚ) - v.2.2)]
  have h2 : ((p.2.1 : ℚ) - v.2.1) ^ 2 < r ^ 2 := by nlinarith [sq_nonneg ((p.1 : ℚ) - v.1), sq_nonneg ((p.2.2 : ℚ) - v.2.2)]
  have h3 : ((p.2.2 : ℚ) - v.2.2) ^ 2 < r ^ 2 := by nlinarith [sq_nonneg ((p.1 : ℚ) - v.1), sq_nonneg ((p.2.1 : ℚ) - v.2.1)]
  rw [mem_boxTriples]
  exact ⟨radBox_cover_axis v.1 r p.1 hx h1 hr,
    radBox_cover_axis v.2.1 r p.2.1 hy h2 hr,
    radBox_cover_axis v.2.2 r p.2.2 hz h3 hr⟩

/-- The counting definition `linFalloffFactor` is exactly the truncated float
factor `(uint8_t)(255 * (1 - radius / r))` of the source, `radius = √distSq`. -/
theorem linFalloffFactor_eq_floor (s r : ℚ) (hs : 0 ≤ s) (hr : 0 < r) (hlt : s < r ^ 2) :
    (linFalloffFactor s r : ℤ) = ⌊(255 : ℝ) * (1 - Real.sqrt (s : ℝ) / (r : ℝ))⌋ := by
  have hrR : (0 : ℝ) < (r : ℝ) := by exact_mod_cast hr
  set d : ℝ := Real.sqrt (s : ℝ) with hd
  have hd0 : 0 ≤ d := Real.sqrt_nonneg _
  have hd2 : d ^ 2 = (s : ℝ) := Real.sq_sqrt (by exact_mod_cast hs)
  have hdr : d < (r : ℝ) := (sqrt_lt_iff_sq s r hs).mpr ⟨hr, hlt⟩
  set f : ℝ := (255 : ℝ) * (1 - d / (r : ℝ)) with hf
  have hf0 : 0 < f := by
    have h1 : d / (r : ℝ) < 1 := (div_lt_one hrR).mpr hdr
    rw [hf]; nlinarith
  have hf255 : f ≤ 255 := by
    have h1 : 0 ≤ d / (r : ℝ) := div_nonneg hd0 hrR.le
    rw [hf]; nlinarith
  have hfl0 : 0 ≤ ⌊f⌋ := Int.le_floor.mpr (by exact_mod_cast hf0.le)
  have hfl255 : ⌊f⌋ ≤ 255 := by
    have h1 : ⌊f⌋ ≤ ⌊(255 : ℝ)⌋ := Int.floor_le_floor hf255
    simpa using h1
  have hcond : ∀ j ∈ Finset.Icc (1 : ℤ) 255,
      (65025 * s ≤ ((255 : ℚ) - (j : ℚ)) ^ 2 * r ^ 2 ↔ j ≤ ⌊f⌋) := by
    intro j hj
    rw [Finset.mem_Icc] at hj
    have hj255 : (0 : ℝ) ≤ 255 - (j : ℝ) := by
      have h1 : (j : ℝ) ≤ 255 := by exact_mod_cast hj.2
      linarith
    rw [Int.le_floor]
    have hfr : f = 255 * ((r : ℝ) - d) / (r : ℝ) := by
      rw [hf]; field_simp
    have key1 : ((j : ℝ) ≤ f) ↔ (j : ℝ) * (r : ℝ) ≤ 255 * ((r : ℝ) - d) := by
      rw [hfr, le_div_iff₀ hrR]
    have key2 : ((j : ℝ) * (r : ℝ) ≤ 255 * ((r : ℝ) - d)) ↔
        255 * d ≤ (255 - (j : ℝ)) * (r : ℝ) := by
      constructor <;> intro h <;> nlinarith
    have key3 : (255 * d ≤ (255 - (j : ℝ)) * (r : ℝ)) ↔
        (255 * d) ^ 2 ≤ ((255 - (j : ℝ)) * (r : ℝ)) ^ 2 :=
      (pow_le_pow_iff_left₀ (by positivity) (mul_nonneg hj255 hrR.le) (by norm_num)).symm
    have key4 : ((255 * d) ^ 2 ≤ ((255 - (j : ℝ)) * (r : ℝ)) ^ 2) ↔
        (65025 : ℝ) * (s : ℝ) ≤ ((255 : ℝ) - (j : ℝ)) ^ 2 * (r : ℝ) ^ 2 := by
      have e1 : (255 * d) ^ 2 = 65025 * (s : ℝ) := by
        rw [mul_pow, hd2]; norm_num
      have e2 : ((255 - (j : ℝ)) * (r : ℝ)) ^ 2 = ((255 : ℝ) - (j : ℝ)) ^ 2 * (r : ℝ) ^ 2 := by
        ring
      rw [e1, e2]
    have key5 : ((65025 : ℝ) * (s : ℝ) ≤ ((255 : ℝ) - (j : ℝ)) ^ 2 * (r : ℝ) ^ 2) ↔
        (65025 * s ≤ ((255 : ℚ) - (j : ℚ)) ^ 2 * r ^ 2) := by
      constructor <;> intro h <;> exact_mod_cast h
    rw [← key5, ← key4, ← key3, ← key2, ← key1]
  have hfilter : (Finset.Icc (1 : ℤ) 255).filter
      (fun (j : ℤ) => 65025 * s ≤ ((255 : ℚ) - (j : ℚ)) ^ 2 * r ^ 2) =
      Finset.Icc (1 : ℤ) ⌊f⌋ := by
    ext j
    simp only [Finset.mem_filter, Finset.mem_Icc]
    constructor
    · rintro ⟨⟨h1, h2⟩, hc⟩
      exact ⟨h1, (hcond j (Finset.mem_Icc.mpr ⟨h1, h2⟩)).mp hc⟩
    · rintro ⟨h1, h2⟩
      have h2' : j ≤ 255 := le_trans h2 hfl255
      exact ⟨⟨h1, h2'⟩, (hcond j (Finset.mem_Icc.mpr ⟨h1, h2'⟩)).mpr h2⟩
  unfold linFalloffFactor
  rw [hfilter, Int.card_Icc]
  omega

/-- The counting definition `falloff5Factor` is exactly the truncated float
factor `(uint8_t)(255 / (1 + radius⁵))` of the source, `radius = √distSq`. -/
theorem falloff5Factor_eq_floor (s : ℚ) (hs : 0 ≤ s) :
    (falloff5Factor s : ℤ) = ⌊(255 : ℝ) / (1 + Real.sqrt (s : ℝ) ^ 5)⌋ := by
  set d : ℝ := Real.sqrt (s : ℝ) with hd
  have hd0 : 0 ≤ d := Real.sqrt_nonneg _
  have hd2 : d ^ 2 = (s : ℝ) := Real.sq_sqrt (by exact_mod_cast hs)
  have hden : (0 : ℝ) < 1 + d ^ 5 := by positivity
  set f : ℝ := (255 : ℝ) / (1 + d ^ 5) with hf
  have hf0 : 0 < f := by rw [hf]; positivity
  have hf255 : f ≤ 255 := by
    rw [hf, div_le_iff₀ hden]
    nlinarith [pow_nonneg hd0 5]
  have hfl0 : 0 ≤ ⌊f⌋ := Int.le_floor.mpr (by exact_mod_cast hf0.le)
  have hfl255 : ⌊f⌋ ≤ 255 := by
    have h1 : ⌊f⌋ ≤ ⌊(255 : ℝ)⌋ := Int.floor_le_floor hf255
    simpa using h1
  have hcond : ∀ j ∈ Finset.Icc (1 : ℤ) 255,
      (((j : ℚ)) ^ 2 * s ^ 5 ≤ ((255 : ℚ) - (j : ℚ)) ^ 2 ↔ j ≤ ⌊f⌋) := by
    intro j hj
    rw [Finset.mem_Icc] at hj
    have hj1 : (1 : ℝ) ≤ (j : ℝ) := by exact_mod_cast hj.1
    have hj255 : (0 : ℝ) ≤ 255 - (j : ℝ) := by
      have h1 : (j : ℝ) ≤ 255 := by exact_mod_cast hj.2
      linarith
    rw [Int.le_floor]
    have key1 : ((j : ℝ) ≤ f) ↔ (j : ℝ) * (1 + d ^ 5) ≤ 255 := by
      rw [hf, le_div_iff₀ hden]
    have key2 : ((j : ℝ) * (1 + d ^ 5) ≤ 255) ↔ (j : ℝ) * d ^ 5 ≤ 255 - (j : ℝ) := by
      constructor <;> intro h <;> nlinarith
    have key3 : ((j : ℝ) * d ^ 5 ≤ 255 - (j : ℝ)) ↔
        ((j : ℝ) * d ^ 5) ^ 2 ≤ (255 - (j : ℝ)) ^ 2 :=
      (pow_le_pow_iff_left₀
        (mul_nonneg (by linarith) (pow_nonneg hd0 5)) hj255 (by norm_num)).symm
    have key4 : (((j : ℝ) * d ^ 5) ^ 2 ≤ (255 - (j : ℝ)) ^ 2) ↔
        ((j : ℝ)) ^ 2 * (s : ℝ) ^ 5 ≤ ((255 : ℝ) - (j : ℝ)) ^ 2 := by
      have e1 : ((j : ℝ) * d ^ 5) ^ 2 = ((j : ℝ)) ^ 2 * (d ^ 2) ^ 5 := by ring
      rw [e1, hd2]
    have key5 : (((j : ℝ)) ^ 2 * (s : ℝ) ^ 5 ≤ ((255 : ℝ) - (j : ℝ)) ^ 2) ↔
        (((j : ℚ)) ^ 2 * s ^ 5 ≤ ((255 : ℚ) - (j : ℚ)) ^ 2) := by
      constructor <;> intro h <;> exact_mod_cast h
    rw [← key5, ← key4, ← key3, ← key2, ← key1]
  have hfilter : (Finset.Icc (1 : ℤ) 255).filter
      (fun (j : ℤ) => ((j : ℚ)) ^ 2 * s ^ 5 ≤ ((255 : ℚ) - (j : ℚ)) ^ 2) =
      Finset.Icc (1 : ℤ) ⌊f⌋ := by
    ext j
    simp only [Finset.mem_filter, Finset.mem_Icc]
    constructor
    · rintro ⟨⟨h1, h2⟩, hc⟩
      exact ⟨h1, (hcond j (Finset.mem_Icc.mpr ⟨h1, h2⟩)).mp hc⟩
    · rintro ⟨h1, h2⟩
      have h2' : j ≤ 255 := le_trans h2 hfl255
      exact ⟨⟨h1, h2'⟩, (hcond j (Finset.mem_Icc.mpr ⟨h1, h2'⟩)).mpr h2⟩
  unfold falloff5Factor
  rw [hfilter, Int.card_Icc]
  omega

/-- At distance 0 the linear falloff factor is exactly 255 (for any radius). -/
theorem linFalloffFactor_zero (r : ℚ) : linFalloffFactor 0 r = 255 := by
  unfold linFalloffFactor
  rw [Finset.filter_true_of_mem, Int.card_Icc]
  · rfl
  · intro j _
    have h1 : (0 : ℚ) ≤ ((255 : ℚ) - (j : ℚ)) ^ 2 * r ^ 2 := by positivity
    linarith

/-- C3 (amended): `radiate(center, C, r)` leaves every cell whose Euclidean
distance from the offset center is ≥ `r` unmodified (in both buffers); every
in-cube cell at distance < `r` is combined — via per-channel saturating
maximize, never overwrite or sum — with `C` scaled by the 8-bit truncation of
the linear falloff `255 * (1 - d/r)`; at distance 0 the factor is exactly 255,
so the incoming intensity equals `C` exactly.  The iterated box misses no
in-cube cell of the sphere (`boxTriples_cover`), but it is *not* in general
the minimal integer box containing the sphere (see `radiate_box_cx`).  The
range hypotheses keep every loop bound inside `int16_t`, the domain on which
the embedding is exact. -/
theorem radiate_correct (s : DisplayState) (v0 : ℚ × ℚ × ℚ) (c : Color) (r : ℚ)
    (_hv1 : |v0.1| ≤ 16000) (_hv2 : |v0.2.1| ≤ 16000) (_hv3 : |v0.2.2| ≤ 16000)
    (_hr : |r| ≤ 16000) :
    (∀ (b : Fin 2) (p : ℤ × ℤ × ℤ), ¬ radGuard p (offCenter v0) r →
      (radiate v0 c r s).cube b p = s.cube b p) ∧
    (∀ p : ℤ × ℤ × ℤ,
      Real.sqrt ((cellDistSq p (offCenter v0) : ℚ) : ℝ) < (r : ℝ) ↔
        radGuard p (offCenter v0) r) ∧
    (∀ p : ℤ × ℤ × ℤ, inCubeZ p → radGuard p (offCenter v0) r →
      (radiate v0 c r s).cube s.cubeBuffer p =
        (s.cube s.cubeBuffer p).maximize
          (c.scaled (linFalloffFactor (cellDistSq p (offCenter v0)) r)) ∧
      (linFalloffFactor (cellDistSq p (offCenter v0)) r : ℤ) =
        ⌊(255 : ℝ) * (1 - Real.sqrt ((cellDistSq p (offCenter v0) : ℚ) : ℝ) / (r : ℝ))⌋) ∧
    (0 < r → linFalloffFactor 0 r = 255 ∧ c.scaled 255 = c) := by
  have hds : ∀ p : ℤ × ℤ × ℤ, (0 : ℚ) ≤ cellDistSq p (offCenter v0) := by
    intro p
    unfold cellDistSq
    positivity
  have hguard_iff : ∀ p : ℤ × ℤ × ℤ,
      Real.sqrt ((cellDistSq p (offCenter v0) : ℚ) : ℝ) < (r : ℝ) ↔
        radGuard p (offCenter v0) r := by
    intro p
    unfold radGuard
    exact sqrt_lt_iff_sq _ r (hds p)
  refine ⟨?_, hguard_iff, ?_, ?_⟩
  · intro b p hng
    simp only [radiate]
    by_cases hb : b = s.cubeBuffer
    · subst hb
      rw [radSweep_cube_current _ _ _ s p (boxTriples_nodup _ _)]
      rw [if_neg (fun h => hng h.2.2)]
    · rw [radSweep_cube_other _ _ _ s b hb]
  · intro p hin hg
    obtain ⟨hx1, hx2, hy1, hy2, hz1, hz2⟩ := hin
    constructor
    · have hmem : p ∈ boxTriples (offCenter v0) r :=
        boxTriples_cover (offCenter v0) r p hx1 hy1 hz1 hg
      have hmask : mask16 p.1 p.2.1 p.2.2 :=
        (mask16_iff p.1 p.2.1 p.2.2 (by omega) (by omega) (by omega) (by omega)
          (by omega) (by omega)).mpr ⟨⟨hx1, hx2⟩, ⟨hy1, hy2⟩, ⟨hz1, hz2⟩⟩
      simp only [radiate]
      rw [radSweep_cube_current _ _ _ s p (boxTriples_nodup _ _)]
      rw [if_pos ⟨hmem, hmask, hg⟩]
    · exact linFalloffFactor_eq_floor _ r (hds p) hg.1 hg.2
  · intro hr0
    exact ⟨linFalloffFactor_zero r, scaled_255 c⟩

theorem radiate_correct_w :
    |((0 : ℚ), (0 : ℚ), (0 : ℚ)).1| ≤ 16000 ∧ |(1 : ℚ)| ≤ 16000 ∧
    (radiate ((0 : ℚ), (0 : ℚ), (0 : ℚ)) ⟨200, 100, 50⟩ 1 initDisplay).cube
      initDisplay.cubeBuffer (8, 8, 8) =
      (initDisplay.cube initDisplay.cubeBuffer (8, 8, 8)).maximize
        (Color.scaled ⟨200, 100, 50⟩
          (linFalloffFactor (cellDistSq (8, 8, 8) (offCenter ((0 : ℚ), (0 : ℚ), (0 : ℚ)))) 1)) := by
  refine ⟨by norm_num, by norm_num, ?_⟩
  exact ((radiate_correct initDisplay ((0 : ℚ), (0 : ℚ), (0 : ℚ)) ⟨200, 100, 50⟩ 1
    (by norm_num) (by norm_num) (by norm_num) (by norm_num)).2.2.1 (8, 8, 8)
    (by decide) (by norm_num [radGuard, cellDistSq, offCenter])).1

/-- C3 counterexample: for `center = (-17, 0, 0)` and `r = 2`, the lattice
cell `(-11, 7, 7)` lies strictly inside the sphere (distance² = 2.75 < 4),
but the iterated box starts at `x1 = (int16_t)(-9.5 - 2 + 1) = -10` (the cast
truncates toward zero), so the box does not contain this sphere cell — the
iterated bounding box is not the minimal integer box containing the sphere. -/
theorem radiate_box_cx :
    radBoxLo (offCenter ((-17 : ℚ), 0, 0)).1 2 = -10 ∧
    cellDistSq (-11, 7, 7) (offCenter ((-17 : ℚ), 0, 0)) < 2 ^ 2 ∧
    ¬ ((-11, 7, 7) ∈ boxTriples (offCenter ((-17 : ℚ), 0, 0)) 2) := by
  have he : radBoxLo (offCenter ((-17 : ℚ), 0, 0)).1 2 = -10 := by
    norm_num [radBoxLo, truncQ, offCenter, Int.ceil_eq_iff]
  refine ⟨he, by norm_num [cellDistSq, offCenter], ?_⟩
  intro hmem
  rw [mem_boxTriples] at hmem
  have h1 := hmem.1.1
  rw [he] at h1
  omega

/-- C4: `radiate5(center, C, r)` sweeps the same bounding box as `radiate`
(the identical `(int16_t)(v - r + 1) … (int16_t)(v + r)` loop bounds); every
in-cube cell at distance < `r` is combined via per-channel saturating maximize
with `C` scaled by the 8-bit truncation of `255 / (1 + d⁵)`; every cell at
distance ≥ `r` is unmodified.  The range hypotheses keep every loop bound
inside `int16_t`, the domain on which the embedding is exact. -/
theorem radiate5_correct (s : DisplayState) (v0 : ℚ × ℚ × ℚ) (c : Color) (r : ℚ)
    (_hv1 : |v0.1| ≤ 16000) (_hv2 : |v0.2.1| ≤ 16000) (_hv3 : |v0.2.2| ≤ 16000)
    (_hr : |r| ≤ 16000) :
    (radiate5 v0 c r s =
      radSweep
        (fun p => mask16 p.1 p.2.1 p.2.2 ∧ radGuard p (offCenter v0) r)
        (fun p old => old.maximize
          (c.scaled (falloff5Factor (cellDistSq p (offCenter v0)))))
        (boxTriples (offCenter v0) r) s ∧
      radiate v0 c r s =
        radSweep
          (fun p => mask16 p.1 p.2.1 p.2.2 ∧ radGuard p (offCenter v0) r)
          (fun p old => old.maximize
            (c.scaled (linFalloffFactor (cellDistSq p (offCenter v0)) r)))
          (boxTriples (offCenter v0) r) s) ∧
    (∀ (b : Fin 2) (p : ℤ × ℤ × ℤ), ¬ radGuard p (offCenter v0) r →
      (radiate5 v0 c r s).cube b p = s.cube b p) ∧
    (∀ p : ℤ × ℤ × ℤ, inCubeZ p → radGuard p (offCenter v0) r →
      (radiate5 v0 c r s).cube s.cubeBuffer p =
        (s.cube s.cubeBuffer p).maximize
          (c.scaled (falloff5Factor (cellDistSq p (offCenter v0)))) ∧
      (falloff5Factor (cellDistSq p (offCenter v0)) : ℤ) =
        ⌊(255 : ℝ) / (1 + Real.sqrt ((cellDistSq p (offCenter v0) : ℚ) : ℝ) ^ 5)⌋) := by
  have hds : ∀ p : ℤ × ℤ × ℤ, (0 : ℚ) ≤ cellDistSq p (offCenter v0) := by
    intro p
    unfold cellDistSq
    positivity
  refine ⟨⟨rfl, rfl⟩, ?_, ?_⟩
  · intro b p hng
    simp only [radiate5]
    by_cases hb : b = s.cubeBuffer
    · subst hb
      rw [radSweep_cube_current _ _ _ s p (boxTriples_nodup _ _)]
      rw [if_neg (fun h => hng h.2.2)]
    · rw [radSweep_cube_other _ _ _ s b hb]
  · intro p hin hg
    obtain ⟨hx1, hx2, hy1, hy2, hz1, hz2⟩ := hin
    constructor
    · have hmem : p ∈ boxTriples (offCenter v0) r :=
        boxTriples_cover (offCenter v0) r p hx1 hy1 hz1 hg
      have hmask : mask16 p.1 p.2.1 p.2.2 :=
        (mask16_iff p.1 p.2.1 p.2.2 (by omega) (by omega) (by omega) (by omega)
          (by omega) (by omega)).mpr ⟨⟨hx1, hx2⟩, ⟨hy1, hy2⟩, ⟨hz1, hz2⟩⟩
      simp only [radiate5]
      rw [radSweep_cube_current _ _ _ s p (boxTriples_nodup _ _)]
      rw [if_pos ⟨hmem, hmask, hg⟩]
    · exact falloff5Factor_eq_floor _ (hds p)

theorem radiate5_correct_w :
    |((0 : ℚ), (0 : ℚ), (0 : ℚ)).1| ≤ 16000 ∧ |(1 : ℚ)| ≤ 16000 ∧
    (radiate5 ((0 : ℚ), (0 : ℚ), (0 : ℚ)) ⟨200, 100, 50⟩ 1 initDisplay).cube
      initDisplay.cubeBuffer (8, 8, 8) =
      (initDisplay.cube initDisplay.cubeBuffer (8, 8, 8)).maximize
        (Color.scaled ⟨200, 100, 50⟩
          (falloff5Factor (cellDistSq (8, 8, 8) (offCenter ((0 : ℚ), (0 : ℚ), (0 : ℚ)))))) := by
  refine ⟨by norm_num, by norm_num, ?_⟩
  exact ((radiate5_correct initDisplay ((0 : ℚ), (0 : ℚ), (0 : ℚ)) ⟨200, 100, 50⟩ 1
    (by norm_num) (by norm_num) (by norm_num) (by norm_num)).2.2 (8, 8, 8)
    (by decide) (by norm_num [radGuard, cellDistSq, offCenter])).1

/-! ### Neighbourhood lemmas (C7) -/

theorem wrapCell_injOn (x y z : ℤ) (d d' : Fin 3 × Fin 3 × Fin 3)
    (h : wrapCell (x + (d.1 : ℤ) - 1) (y + (d.2.1 : ℤ) - 1) (z + (d.2.2 : ℤ) - 1) =
      wrapCell (x + (d'.1 : ℤ) - 1) (y + (d'.2.1 : ℤ) - 1) (z + (d'.2.2 : ℤ) - 1)) :
    d = d' := by
  obtain ⟨⟨a, ha⟩, ⟨b, hb⟩, ⟨c, hc⟩⟩ := d
  obtain ⟨⟨a', ha'⟩, ⟨b', hb'⟩, ⟨c', hc'⟩⟩ := d'
  simp only [wrapCell, Prod.ext_iff, Fin.mk.injEq] at h ⊢
  obtain ⟨h1, h2, h3⟩ := h
  exact ⟨by omega, by omega, by omega⟩

theorem neighbourCells_card (x y z : ℤ) : (neighbourCells x y z).card = 26 := by
  unfold neighbourCells
  rw [Finset.card_image_of_injOn]
  · decide
  · intro d hd d' hd' h
    exact wrapCell_injOn x y z d d' h

theorem liveNeighbourCells_eq_offsets (g : ℕ → ℕ → ℕ) (x y z : ℤ) :
    liveNeighbourCells g x y z =
      ((Finset.univ : Finset (Fin 3 × Fin 3 × Fin 3)).filter
        (fun (d : Fin 3 × Fin 3 × Fin 3) =>
          d ≠ (1, 1, 1) ∧ cellLive g
            (wrapCell (x + (d.1 : ℤ) - 1) (y + (d.2.1 : ℤ) - 1)
              (z + (d.2.2 : ℤ) - 1)))).card := by
  unfold liveNeighbourCells neighbourCells
  rw [Finset.filter_image]
  rw [Finset.card_image_of_injOn (fun d hd d' hd' h => wrapCell_injOn x y z d d' h)]
  congr 1
  rw [Finset.filter_filter]

/-- The `count_neighbours` loop equals the offset-set count: one term per
offset in the 3×3×3 block, the center excluded by the unwrapped-coordinate
test, every access wrapped modulo 16. -/
theorem count_neighbours_eq_offsets (g : ℕ → ℕ → ℕ) (x y z : ℤ) :
    count_neighbours g x y z =
      ((Finset.univ : Finset (Fin 3 × Fin 3 × Fin 3)).filter
        (fun (d : Fin 3 × Fin 3 × Fin 3) =>
          d ≠ (1, 1, 1) ∧ cellLive g
            (wrapCell (x + (d.1 : ℤ) - 1) (y + (d.2.1 : ℤ) - 1)
              (z + (d.2.2 : ℤ) - 1)))).card := by
  rw [Finset.card_filter]
  rw [Fintype.sum_prod_type]
  simp only [Fintype.sum_prod_type]
  simp only [Fin.sum_univ_three]
  simp only [count_neighbours, List.map_cons, List.map_nil, List.sum_cons, List.sum_nil,
    cellLive, wrapCell]
  simp only [show ((0 : Fin 3) : ℤ) = 0 from by decide, show ((1 : Fin 3) : ℤ) = 1 from by decide,
    show ((2 : Fin 3) : ℤ) = 2 from by decide, Prod.mk.injEq,
    show ((0 : Fin 3) = 1) = False from by simp, show ((2 : Fin 3) = 1) = False from by simp,
    false_and, and_false, true_and, and_true, not_false_eq_true, eq_self_iff_true]
  have h21 : ∀ t : ℤ, t + 2 - 1 = t + 1 := fun t => by ring
  simp only [h21]
  norm_num
  simp only [show ((2 : Fin 3) = 1) ↔ False from by decide, not_false_eq_true, true_and]
  ring

/-- C7: for every in-bounds cell, `count_neighbours` returns the number of
live cells among exactly the 26 cells of the enclosing 3×3×3 block excluding
the cell itself, with each neighbour coordinate wrapped toroidally modulo 16
(there are exactly 26 such cells, edge cells seeing the opposite face), and
the result is at most 26. -/
theorem count_neighbours_correct (g : ℕ → ℕ → ℕ) (x y z : ℤ)
    (_hx1 : 0 ≤ x) (_hx2 : x < 16) (_hy1 : 0 ≤ y) (_hy2 : y < 16)
    (_hz1 : 0 ≤ z) (_hz2 : z < 16) :
    count_neighbours g x y z = liveNeighbourCells g x y z ∧
    (neighbourCells x y z).card = 26 ∧
    count_neighbours g x y z ≤ 26 := by
  have h1 : count_neighbours g x y z = liveNeighbourCells g x y z := by
    rw [liveNeighbourCells_eq_offsets, count_neighbours_eq_offsets]
  refine ⟨h1, neighbourCells_card x y z, ?_⟩
  rw [h1]
  unfold liveNeighbourCells
  calc ((neighbourCells x y z).filter (cellLive g)).card
      ≤ (neighbourCells x y z).card := Finset.card_filter_le _ _
    _ = 26 := neighbourCells_card x y z

theorem count_neighbours_correct_w :
    (0 : ℤ) ≤ 0 ∧ (0 : ℤ) < 16 ∧
    count_neighbours (fun _ _ => 65535) 0 0 0 ≤ 26 :=
  ⟨le_refl 0, by decide,
    (count_neighbours_correct (fun _ _ => 65535) 0 0 0 (by decide) (by decide) (by decide)
      (by decide) (by decide) (by decide)).2.2⟩

/-! ### Life engine lemmas (C8–C10) -/

theorem next_gen_hash_nr (s : LifeState) : (game_next_generation s).1.hash_nr = s.hash_nr := rfl

theorem next_gen_hash_list (s : LifeState) :
    (game_next_generation s).1.hash_list = s.hash_list := rfl

theorem next_gen_sequence (s : LifeState) :
    (game_next_generation s).1.sequence = s.sequence := rfl

theorem next_gen_rules (s : LifeState) : (game_next_generation s).1.rules = s.rules := rfl

/-- Under the all-`DIE` rule table a column's fold clears every bit it visits,
so it reports no living cells. -/
theorem stepColumn_allDie_living (g : ℕ → ℕ → ℕ) (x y : ℕ) :
    (stepColumn g (fun _ => Rule.DIE) x y).2.2 = 0 := by
  unfold stepColumn
  have key : ∀ (l : List ℕ), (∀ z ∈ l, z < 16) → ∀ acc : ℕ × ℕ × ℕ, acc.2.2 = 0 →
      (l.foldl
        (fun (acc : ℕ × ℕ × ℕ) (z : ℕ) =>
          let cnt := count_neighbours g (x : ℤ) (y : ℤ) (z : ℤ)
          let cells :=
            match (fun _ => Rule.DIE : ℕ → Rule) cnt with
            | Rule.DIE => acc.1 &&& (65535 ^^^ (1 <<< z))
            | Rule.LIVE => acc.1
            | Rule.BIRTH => acc.1 ||| (1 <<< z)
          (cells, acc.2.1 + cnt * (x * 3 + y * 5 + z * 7),
            acc.2.2 + if cells.testBit z then 1 else 0))
        acc).2.2 = 0 := by
    intro l
    induction l with
    | nil => intro _ acc hacc; exact hacc
    | cons z l ih =>
      intro hl acc hacc
      rw [List.foldl_cons]
      refine ih (fun w hw => hl w (List.mem_cons_of_mem z hw)) _ ?_
      have hz : z < 16 := hl z (List.mem_cons_self z l)
      have hbit : (acc.1 &&& (65535 ^^^ (1 <<< z))).testBit z = false := by
        rw [Nat.testBit_and, Nat.testBit_xor]
        have h1 : (65535 : ℕ).testBit z = true := by
          have : (65535 : ℕ) = 2 ^ 16 - 1 := by norm_num
          rw [this, Nat.testBit_two_pow_sub_one]
          simpa using hz
        have h2 : ((1 : ℕ) <<< z).testBit z = true := by
          have : (1 : ℕ) <<< z = 2 ^ z := by rw [Nat.shiftLeft_eq, one_mul]
          rw [this]
          exact Nat.testBit_two_pow_self
        rw [h1, h2]
        simp
      simp only [hbit]
      simpa using hacc
  refine key (List.range 16) (fun z hz => List.mem_range.mp hz) _ rfl

/-- Under the all-`BIRTH` rule table a column's fold sets every bit it
visits, so it reports one living cell per visited plane. -/
theorem stepColumn_allBirth_living (g : ℕ → ℕ → ℕ) (x y : ℕ) :
    (stepColumn g (fun _ => Rule.BIRTH) x y).2.2 = 16 := by
  unfold stepColumn
  have key : ∀ (l : List ℕ) (acc : ℕ × ℕ × ℕ),
      (l.foldl
        (fun (acc : ℕ × ℕ × ℕ) (z : ℕ) =>
          let cnt := count_neighbours g (x : ℤ) (y : ℤ) (z : ℤ)
          let cells :=
            match (fun _ => Rule.BIRTH : ℕ → Rule) cnt with
            | Rule.DIE => acc.1 &&& (65535 ^^^ (1 <<< z))
            | Rule.LIVE => acc.1
            | Rule.BIRTH => acc.1 ||| (1 <<< z)
          (cells, acc.2.1 + cnt * (x * 3 + y * 5 + z * 7),
            acc.2.2 + if cells.testBit z then 1 else 0))
        acc).2.2 = acc.2.2 + l.length := by
    intro l
    induction l with
    | nil => intro acc; simp
    | cons z l ih =>
      intro acc
      rw [List.foldl_cons]
      rw [ih]
      have hbit : (acc.1 ||| (1 <<< z)).testBit z = true := by
        rw [Nat.testBit_or]
        have h2 : ((1 : ℕ) <<< z).testBit z = true := by
          have : (1 : ℕ) <<< z = 2 ^ z := by rw [Nat.shiftLeft_eq, one_mul]
          rw [this]
          exact Nat.testBit_two_pow_self
        rw [h2]
        simp
      simp only [hbit]
      simp [List.length_cons]
      omega
  rw [key (List.range 16) _]
  simp

/-- All-`DIE` rules: one generation extinguishes the whole population. -/
theorem next_gen_allDie_living (s : LifeState) (h : s.rules = fun _ => Rule.DIE) :
    (game_next_generation s).1.living = 0 := by
  show (∑ x ∈ Finset.range 16, ∑ y ∈ Finset.range 16,
    (stepColumn s.g2 s.rules x y).2.2) = 0
  rw [h]
  simp [stepColumn_allDie_living]

/-- All-`BIRTH` rules: one generation fills the whole volume (4096 cells). -/
theorem next_gen_allBirth_living (s : LifeState) (h : s.rules = fun _ => Rule.BIRTH) :
    (game_next_generation s).1.living = 4096 := by
  show (∑ x ∈ Finset.range 16, ∑ y ∈ Finset.range 16,
    (stepColumn s.g2 s.rules x y).2.2) = 4096
  rw [h]
  simp [stepColumn_allBirth_living]

/-- While at most 255 hashes are recorded, the stagnation scan terminates and
counts the matches among entries `[i, hash_nr)`. -/
theorem scanLoop_terminates_small (hn : ℕ) (hl : ℕ → ℕ) (h : ℕ) (hle : hn ≤ 255) :
    ∀ fuel i m, i ≤ hn → hn < fuel + i →
      scanLoop hn hl h fuel i m =
        some (m + ((Finset.Ico i hn).filter (fun j => hl j = h)).card) := by
  intro fuel
  induction fuel with
  | zero =>
    intro i m h1 h2
    omega
  | succ fuel ih =>
    intro i m h1 h2
    rw [scanLoop]
    by_cases hi : i < hn
    · rw [if_pos ⟨hi, by omega⟩]
      have hmod : (i + 1) % 256 = i + 1 := Nat.mod_eq_of_lt (by omega)
      rw [hmod, ih (i + 1) _ (by omega) (by omega)]
      congr 1
      rw [Finset.card_filter, Finset.card_filter, Finset.sum_eq_sum_Ico_succ_bot hi]
      ring
    · rw [if_neg (fun hc => hi hc.1)]
      have hieq : i = hn := by omega
      subst hieq
      simp
/-- Once 256 hashes have been recorded the scan never exits: the `uint8_t`
index wraps below `hash_nr` forever (`i <= 255` is vacuously true). -/
theorem scanLoop_no_exit (hn : ℕ) (hge : 256 ≤ hn) (hl : ℕ → ℕ) (h : ℕ) :
    ∀ fuel i m, i ≤ 255 → scanLoop hn hl h fuel i m = none := by
  intro fuel
  induction fuel with
  | zero => intro i m _; rfl
  | succ fuel ih =>
    intro i m hi
    rw [scanLoop]
    rw [if_pos ⟨by omega, hi⟩]
    exact ih _ _ (by omega)

/-- `game_progress` never returns once 256 hashes are recorded and the new
generation is alive. -/
theorem game_progress_none (s : LifeState) (rnd : ℕ) (pl : ℕ → ℕ × ℕ × ℕ)
    (hnz : (game_next_generation s).1.living ≠ 0) (hge : 256 ≤ s.hash_nr) :
    ∀ fuel, game_progress fuel rnd pl s = none := by
  intro fuel
  simp only [game_progress]
  rw [if_neg hnz]
  rw [next_gen_hash_nr, next_gen_hash_list]
  rw [scanLoop_no_exit s.hash_nr hge s.hash_list _ fuel 0 0 (by omega)]

theorem presetAmount_pos (seq rnd : ℕ) : 0 < presetAmount seq rnd := by
  rcases seq with _ | _ | _ | n <;> simp only [presetAmount] <;> omega

/-- `game_reseed` on a reset rule table installs the preset of the current
`sequence`, advances the rotation (wrapping to 0 after the last preset),
sets `living` to the placed amount and leaves `cells_g1` untouched. -/
theorem game_reseed_spec (rnd : ℕ) (pl : ℕ → ℕ × ℕ × ℕ) (t : LifeState)
    (hrules : t.rules = fun _ => Rule.DIE) :
    (game_reseed rnd pl t).living = presetAmount t.sequence rnd ∧
    (game_reseed rnd pl t).rules = presetRules t.sequence ∧
    (game_reseed rnd pl t).sequence =
      (if t.sequence = 0 then 1 else if t.sequence = 1 then 2 else
        if t.sequence = 2 then 3 else 0) ∧
    (game_reseed rnd pl t).g1 = t.g1 := by
  obtain ⟨g1, g2, rules, hl, hn, lv, seq⟩ := t
  simp only [LifeState.rules] at hrules
  subst hrules
  rcases seq with _ | _ | _ | n <;>
    simp [game_reseed, game_randomize, presetAmount, presetRules]

/-- C8: whenever a generation step inside `game_progress` leaves the
population at 0, the engine immediately reseeds: the grid is reset, the next
rule preset of the fixed rotation is installed (the index increments, wrapping
to 0 after the last preset), a fresh random population of the preset's amount
is placed, and the tracked population is > 0.  The last conjunct supports the
scenario: under an all-`DIE` rule table any state (in particular a single
live cell) reaches population 0 in one step. -/
theorem game_progress_extinct (s : LifeState) (fuel rnd : ℕ) (pl : ℕ → ℕ × ℕ × ℕ)
    (h0 : (game_next_generation s).1.living = 0) :
    (∃ s', game_progress fuel rnd pl s = some s' ∧
      0 < s'.living ∧
      s'.living = presetAmount s.sequence rnd ∧
      s'.rules = presetRules s.sequence ∧
      s'.sequence = (if s.sequence = 0 then 1 else if s.sequence = 1 then 2 else
        if s.sequence = 2 then 3 else 0) ∧
      s'.g1 = fun _ _ => 0) ∧
    (∀ t : LifeState, t.rules = (fun _ => Rule.DIE) →
      (game_next_generation t).1.living = 0) := by
  refine ⟨?_, fun t ht => next_gen_allDie_living t ht⟩
  have hspec := game_reseed_spec rnd pl (game_reset (game_next_generation s).1) rfl
  have e1 : (game_reset (game_next_generation s).1).sequence = s.sequence := rfl
  have e2 : (game_reset (game_next_generation s).1).g1 = fun _ _ => 0 := rfl
  rw [e1, e2] at hspec
  refine ⟨game_reseed rnd pl (game_reset (game_next_generation s).1), ?_, ?_, hspec.1, hspec.2.1,
    hspec.2.2.1, hspec.2.2.2⟩
  · simp only [game_progress]
    rw [if_pos h0]
  · rw [hspec.1]
    exact presetAmount_pos s.sequence rnd

theorem game_progress_extinct_w :
    (game_next_generation
      (⟨fun _ _ => 0, fun x y => if x = 0 ∧ y = 0 then 1 else 0, fun _ => Rule.DIE,
        fun _ => 0, 0, 1, 0⟩ : LifeState)).1.living = 0 ∧
    ∃ s', game_progress 0 7 (fun _ => (0, 0, 0))
        (⟨fun _ _ => 0, fun x y => if x = 0 ∧ y = 0 then 1 else 0, fun _ => Rule.DIE,
          fun _ => 0, 0, 1, 0⟩ : LifeState) = some s' ∧
      0 < s'.living ∧
      s'.living = presetAmount 0 7 ∧
      s'.rules = presetRules 0 ∧
      s'.sequence = (if (0 : ℕ) = 0 then 1 else if (0 : ℕ) = 1 then 2 else
        if (0 : ℕ) = 2 then 3 else 0) ∧
      s'.g1 = fun _ _ => 0 := by
  have h0 : (game_next_generation
      (⟨fun _ _ => 0, fun x y => if x = 0 ∧ y = 0 then 1 else 0, fun _ => Rule.DIE,
        fun _ => 0, 0, 1, 0⟩ : LifeState)).1.living = 0 :=
    next_gen_allDie_living _ rfl
  exact ⟨h0, (game_progress_extinct _ 0 7 (fun _ => (0, 0, 0)) h0).1⟩

/-- C9 (amended): provided at most 255 generation hashes have been recorded
(`hash_nr ≤ 255`; once 256 are recorded the scan never terminates, see
`game_progress_stagnation_cx`): when the new generation is alive and either
its hash matches at least 6 recorded hashes or the population is at or above
the 500 ceiling, the rule table is reset to all-`DIE` and exactly one further
generation is computed, without recording or reseeding; otherwise the hash is
recorded in the ring slot `hash_nr & 0xFF`, `hash_nr` increments, and the
rule table is unchanged. -/
theorem game_progress_stagnation (s : LifeState) (fuel rnd : ℕ) (pl : ℕ → ℕ × ℕ × ℕ)
    (hnz : (game_next_generation s).1.living ≠ 0)
    (hhn : s.hash_nr ≤ 255) (hfuel : s.hash_nr < fuel) :
    (6 ≤ ((Finset.range s.hash_nr).filter
        (fun j => s.hash_list j = (game_next_generation s).2)).card ∨
      500 ≤ (game_next_generation s).1.living →
      game_progress fuel rnd pl s =
        some (game_next_generation (game_rule_reset (game_next_generation s).1)).1 ∧
      (game_next_generation (game_rule_reset (game_next_generation s).1)).1.rules
        = (fun _ => Rule.DIE) ∧
      (game_next_generation (game_rule_reset (game_next_generation s).1)).1.hash_nr
        = s.hash_nr) ∧
    (¬(6 ≤ ((Finset.range s.hash_nr).filter
        (fun j => s.hash_list j = (game_next_generation s).2)).card ∨
      500 ≤ (game_next_generation s).1.living) →
      game_progress fuel rnd pl s =
        some { (game_next_generation s).1 with
          hash_list := fun i => if i = s.hash_nr % 256 then (game_next_generation s).2
            else s.hash_list i,
          hash_nr := s.hash_nr + 1 } ∧
      s.rules = (game_next_generation s).1.rules) := by
  have hcount : scanLoop (game_next_generation s).1.hash_nr
      (game_next_generation s).1.hash_list (game_next_generation s).2 fuel 0 0 =
      some (0 + ((Finset.Ico 0 s.hash_nr).filter
        (fun j => s.hash_list j = (game_next_generation s).2)).card) := by
    rw [next_gen_hash_nr, next_gen_hash_list]
    exact scanLoop_terminates_small s.hash_nr s.hash_list _ hhn fuel 0 0 (by omega) (by omega)
  have hrange : (Finset.range s.hash_nr) = Finset.Ico 0 s.hash_nr := by
    rw [Finset.range_eq_Ico]
  constructor
  · intro hcond
    refine ⟨?_, rfl, rfl⟩
    simp only [game_progress]
    rw [if_neg hnz, hcount]
    dsimp only
    rw [if_pos (by rw [zero_add, ← hrange]; exact hcond)]
  · intro hcond
    refine ⟨?_, rfl⟩
    simp only [game_progress]
    rw [if_neg hnz, hcount]
    dsimp only
    rw [if_neg (by rw [zero_add, ← hrange]; exact hcond)]
    rfl

theorem game_progress_stagnation_w :
    (game_next_generation
      (⟨fun _ _ => 0, fun _ _ => 0, fun _ => Rule.BIRTH, fun _ => 0, 0, 0, 0⟩
        : LifeState)).1.living ≠ 0 ∧
    (⟨fun _ _ => 0, fun _ _ => 0, fun _ => Rule.BIRTH, fun _ => 0, 0, 0, 0⟩
        : LifeState).hash_nr ≤ 255 ∧
    game_progress 1 0 (fun _ => (0, 0, 0))
        (⟨fun _ _ => 0, fun _ _ => 0, fun _ => Rule.BIRTH, fun _ => 0, 0, 0, 0⟩
          : LifeState) =
      some (game_next_generation (game_rule_reset (game_next_generation
        (⟨fun _ _ => 0, fun _ _ => 0, fun _ => Rule.BIRTH, fun _ => 0, 0, 0, 0⟩
          : LifeState)).1)).1 := by
  have hlv : (game_next_generation
      (⟨fun _ _ => 0, fun _ _ => 0, fun _ => Rule.BIRTH, fun _ => 0, 0, 0, 0⟩
        : LifeState)).1.living = 4096 :=
    next_gen_allBirth_living _ rfl
  have hnz : (game_next_generation
      (⟨fun _ _ => 0, fun _ _ => 0, fun _ => Rule.BIRTH, fun _ => 0, 0, 0, 0⟩
        : LifeState)).1.living ≠ 0 := by rw [hlv]; omega
  refine ⟨hnz, by decide, ?_⟩
  exact (((game_progress_stagnation _ 1 0 (fun _ => (0, 0, 0)) hnz (by decide) (by decide)).1)
    (Or.inr (by rw [hlv]; omega))).1

/-- C9 counterexample: at a state with 256 recorded hashes whose next
generation has population 4096 ≥ 500, the claim demands that the rule table
be reset to all-die and one further generation computed — but `game_progress`
never returns at all: the 8-bit scan index always stays below `hash_nr`, so
the scan never exits. -/
theorem game_progress_stagnation_cx :
    500 ≤ (game_next_generation
      (⟨fun _ _ => 0, fun _ _ => 0, fun _ => Rule.BIRTH, fun _ => 0, 256, 1, 0⟩
        : LifeState)).1.living ∧
    ¬ gameProgressTerminates 0 (fun _ => (0, 0, 0))
      (⟨fun _ _ => 0, fun _ _ => 0, fun _ => Rule.BIRTH, fun _ => 0, 256, 1, 0⟩
        : LifeState) := by
  have hlv : (game_next_generation
      (⟨fun _ _ => 0, fun _ _ => 0, fun _ => Rule.BIRTH, fun _ => 0, 256, 1, 0⟩
        : LifeState)).1.living = 4096 :=
    next_gen_allBirth_living _ rfl
  refine ⟨by rw [hlv]; omega, ?_⟩
  rintro ⟨fuel, s', hs'⟩
  rw [game_progress_none _ 0 (fun _ => (0, 0, 0)) (by rw [hlv]; omega) (by decide) fuel] at hs'
  exact Option.noConfusion hs'

/-- C10: the stagnation-detection scan does *not* terminate for every
reachable automaton state: as soon as 256 hashes have been recorded
(`hash_nr ≥ 256`, reached after 256 recorded generations) the 8-bit loop
index, wrapping modulo 256, stays below the 32-bit `hash_nr` forever — the
`i <= 255` guard is vacuous on a `uint8_t` — so `game_progress` is not a
total function of the automaton state. -/
theorem game_progress_scan_diverges (s : LifeState) (rnd : ℕ) (pl : ℕ → ℕ × ℕ × ℕ)
    (hnz : (game_next_generation s).1.living ≠ 0) (hge : 256 ≤ s.hash_nr) :
    ¬ gameProgressTerminates rnd pl s ∧
    (∀ (h : ℕ) (fuel i m : ℕ), i ≤ 255 → scanLoop s.hash_nr s.hash_list h fuel i m = none) := by
  constructor
  · rintro ⟨fuel, s', hs'⟩
    rw [game_progress_none s rnd pl hnz hge fuel] at hs'
    exact Option.noConfusion hs'
  · intro h fuel i m hi
    exact scanLoop_no_exit s.hash_nr hge s.hash_list h fuel i m hi

theorem game_progress_scan_diverges_w :
    (game_next_generation
      (⟨fun _ _ => 0, fun _ _ => 0, fun _ => Rule.BIRTH, fun _ => 0, 300, 1, 2⟩
        : LifeState)).1.living ≠ 0 ∧
    (256 : ℕ) ≤ 300 ∧
    ¬ gameProgressTerminates 5 (fun _ => (1, 2, 3))
      (⟨fun _ _ => 0, fun _ _ => 0, fun _ => Rule.BIRTH, fun _ => 0, 300, 1, 2⟩
        : LifeState) := by
  have hlv : (game_next_generation
      (⟨fun _ _ => 0, fun _ _ => 0, fun _ => Rule.BIRTH, fun _ => 0, 300, 1, 2⟩
        : LifeState)).1.living = 4096 :=
    next_gen_allBirth_living _ rfl
  have hnz : (game_next_generation
      (⟨fun _ _ => 0, fun _ _ => 0, fun _ => Rule.BIRTH, fun _ => 0, 300, 1, 2⟩
        : LifeState)).1.living ≠ 0 := by rw [hlv]; omega
  exact ⟨hnz, by omega,
    (game_progress_scan_diverges _ 5 (fun _ => (1, 2, 3)) hnz (by decide)).1⟩
